import Mathlib

/-!
# Task Master (todo-app)

A shallow embedding of the task store and of the two persistence effects of
`src/App.jsx`, of the form handler of `src/components/TodoForm.jsx`, of the row
handlers of `src/components/TodoItem.jsx` and of the percentage of
`src/components/ProgressBar.jsx`.

* React state is passed explicitly: every `setTodos (prev => ...)` updater is
  the function from the previous collection to the next one, and a handler
  returns the state it leaves.  The clock reading of `Date.now()` is an
  argument of `addTodo`.
* What the code takes from the platform is modelled after ECMA-262 and
  ECMA-404: strings are sequences of UTF-16 code units, `String.prototype.trim`
  strips `WhiteSpace` and `LineTerminator`, `JSON.parse` is a lexer and a
  recursive-descent parser of the JSON grammar, `JSON.stringify` writes a task
  with `QuoteJSONString`, and the percentage is computed in binary64 with
  round-to-nearest, ties-to-even.
* The definitions come first, then the lemmas and the theorems about them.
-/

namespace TodoApp

/-! ## Data model -/

/-- A JavaScript string: a sequence of UTF-16 code units. -/
abbrev JSString := List Nat

/-- The UTF-16 code units of one character. -/
def utf16 (c : Char) : List Nat :=
  if c.toNat < 0x10000 then [c.toNat]
  else [0xD800 + (c.toNat - 0x10000) / 0x400, 0xDC00 + (c.toNat - 0x10000) % 0x400]

/-- The JavaScript string written as the literal `s`. -/
def js (s : String) : JSString :=
  (s.toList.map utf16).flatten

/-- A task record `{ id, todo, completed }` as `addTodo` builds it.  The field
that holds the text of the task is called `todo` in the source. -/
structure Todo where
  id : Int
  todo : JSString
  completed : Bool
deriving DecidableEq, Repr

/-- The object `{ todo, completed }` that the form hands to `addTodo`. -/
structure TodoDraft where
  todo : JSString
  completed : Bool
deriving DecidableEq, Repr

/-! ## The task store (`App.jsx`, lines 10-32) -/

/-- `setTodos((prev) => [{ id: Date.now(), ...todo }, ...prev])`, with `now`
the value of `Date.now()`. -/
def addTodo (now : Int) (todo : TodoDraft) (prev : List Todo) : List Todo :=
  { id := now, todo := todo.todo, completed := todo.completed } :: prev

/-- `prev.map((prevTodo) => (prevTodo.id === id ? todo : prevTodo))`. -/
def updateTodo (id : Int) (todo : Todo) (prev : List Todo) : List Todo :=
  prev.map (fun prevTodo => if prevTodo.id = id then todo else prevTodo)

/-- `prev.filter((todo) => todo.id !== id)`. -/
def deleteTodo (id : Int) (prev : List Todo) : List Todo :=
  prev.filter (fun todo => decide (todo.id ≠ id))

/-- `prev.map((prevTodo) => prevTodo.id === id
      ? { ...prevTodo, completed: !prevTodo.completed } : prevTodo)`. -/
def toggleComplete (id : Int) (prev : List Todo) : List Todo :=
  prev.map (fun prevTodo =>
    if prevTodo.id = id then { prevTodo with completed := !prevTodo.completed }
    else prevTodo)

/-! ## `String.prototype.trim` -/

/-- The code units that `trim` strips: ECMAScript `WhiteSpace` (TAB, VT, FF,
SP, NBSP, ZWNBSP and the category Zs) and `LineTerminator` (LF, CR, LS, PS). -/
def isWhiteSpace (n : Nat) : Bool :=
  n == 0x09 || n == 0x0A || n == 0x0B || n == 0x0C || n == 0x0D || n == 0x20
    || n == 0xA0 || n == 0x1680 || (0x2000 ≤ n && n ≤ 0x200A)
    || n == 0x2028 || n == 0x2029 || n == 0x202F || n == 0x205F
    || n == 0x3000 || n == 0xFEFF

/-- `s.trim()`: white space removed from both ends. -/
def trim (s : JSString) : JSString :=
  ((s.dropWhile isWhiteSpace).reverse.dropWhile isWhiteSpace).reverse

/-! ## The form (`TodoForm.jsx`, lines 8-14) -/

namespace TodoForm

/-- The submit handler `add`.  `todo` is the content of the input field; the
result is the new content of the field and the new collection.
```
if (!todo.trim()) return;
addTodo({ todo, completed: false });
setTodo("");
```
The empty string is the only falsy string, so `!todo.trim()` holds exactly when
the trimmed text is empty. -/
def add (todo : JSString) (now : Int) (todos : List Todo) : JSString × List Todo :=
  if (trim todo).isEmpty then (todo, todos)
  else ([], addTodo now { todo := todo, completed := false } todos)

end TodoForm

/-! ## A row (`TodoItem.jsx`, lines 10-17) -/

namespace TodoItem

/-- The handler `editTodo` of the row that shows `todo`, with `todoMsg` the
content of the row's text field:
`updateTodo(todo.id, {...todo, todo: todoMsg})`. -/
def editTodo (todo : Todo) (todoMsg : JSString) (todos : List Todo) : List Todo :=
  updateTodo todo.id { todo with todo := todoMsg } todos

/-- The handler `toggleCompleted` of the row that shows `todo`. -/
def toggleCompleted (todo : Todo) (todos : List Todo) : List Todo :=
  toggleComplete todo.id todos

/-- The local state of a row: `isTodoEditable` and `todoMsg`. -/
structure Row where
  isTodoEditable : Bool
  todoMsg : JSString
deriving DecidableEq, Repr

/-- The state a row is mounted with: `useState(false)`, `useState(todo.todo)`. -/
def mount (todo : Todo) : Row :=
  { isTodoEditable := false, todoMsg := todo.todo }

/-- The `onChange` of the text field: `setTodoMsg(e.target.value)`. -/
def onChange (value : JSString) (row : Row) : Row :=
  { row with todoMsg := value }

/-- The `onClick` of the edit button (lines 94-101):
```
if (todo.completed) return;
if (isTodoEditable) { editTodo(); } else { setIsTodoEditable(true); }
```
where `editTodo` ends with `setIsTodoEditable(false)`. -/
def onEditClick (todo : Todo) (row : Row) (todos : List Todo) : Row × List Todo :=
  if todo.completed then (row, todos)
  else if row.isTodoEditable then
    ({ row with isTodoEditable := false }, editTodo todo row.todoMsg todos)
  else ({ row with isTodoEditable := true }, todos)

/-- The `onKeyDown` of the text field (lines 60-68), `key` being `e.key`:
```
if (e.key === 'Enter' && isTodoEditable) { editTodo(); }
if (e.key === 'Escape' && isTodoEditable) {
  setTodoMsg(todo.todo); setIsTodoEditable(false);
}
```
Both tests read the `isTodoEditable` of the render the handler belongs to, and
a key is not both `Enter` and `Escape`. -/
def onKeyDown (key : JSString) (todo : Todo) (row : Row) (todos : List Todo) :
    Row × List Todo :=
  if key = js "Enter" ∧ row.isTodoEditable = true then
    ({ row with isTodoEditable := false }, editTodo todo row.todoMsg todos)
  else if key = js "Escape" ∧ row.isTodoEditable = true then
    ({ isTodoEditable := false, todoMsg := todo.todo }, todos)
  else (row, todos)

end TodoItem

/-! ## Sequences of store operations -/

/-- One call of a store operation that the context hands out
(`value={{ todos, addTodo, deleteTodo, updateTodo, toggleComplete }}`); for
`addTodo` the clock reading `Date.now()` of the call is part of the step. -/
inductive Action where
  | add (now : Int) (todo : TodoDraft)
  | update (id : Int) (todo : Todo)
  | delete (id : Int)
  | toggle (id : Int)
deriving DecidableEq, Repr

/-- The collection after one operation. -/
def step (todos : List Todo) : Action → List Todo
  | .add now todo => addTodo now todo todos
  | .update id todo => updateTodo id todo todos
  | .delete id => deleteTodo id todos
  | .toggle id => toggleComplete id todos

/-- The collection after a sequence of operations, from `start`. -/
def runFrom (start : List Todo) (actions : List Action) : List Todo :=
  actions.foldl step start

/-- The collection after a sequence of operations, from `useState([])`. -/
def run (actions : List Action) : List Todo :=
  runFrom [] actions

/-- The ids of a collection, in order. -/
def ids (todos : List Todo) : List Int :=
  todos.map (·.id)

/-- A step that keeps ids apart: an `addTodo` whose clock reading is not the
id of a task in the collection, an `updateTodo` whose replacement record
carries the id it is addressed to, any `deleteTodo`, any `toggleComplete`. -/
def Action.Fresh (todos : List Todo) : Action → Prop
  | .add now _ => now ∉ ids todos
  | .update id todo => todo.id = id
  | .delete _ => True
  | .toggle _ => True

/-- Every step of the sequence is `Fresh` for the collection it is applied to. -/
def AllFresh : List Todo → List Action → Prop
  | _, [] => True
  | todos, a :: rest => a.Fresh todos ∧ AllFresh (step todos a) rest

instance Action.decidableFresh (todos : List Todo) :
    (a : Action) → Decidable (a.Fresh todos)
  | .add now _ => inferInstanceAs (Decidable (now ∉ ids todos))
  | .update id todo => inferInstanceAs (Decidable (todo.id = id))
  | .delete _ => isTrue trivial
  | .toggle _ => isTrue trivial

instance decidableAllFresh : (todos : List Todo) → (actions : List Action) →
    Decidable (AllFresh todos actions)
  | _, [] => isTrue trivial
  | todos, a :: rest =>
    @instDecidableAnd _ _ (Action.decidableFresh todos a)
      (decidableAllFresh (step todos a) rest)

/-! ## Derived stats (`App.jsx`, lines 45-47 and 99; `ProgressBar.jsx`, line 5)

JavaScript numbers are IEEE 754 binary64 values.  Every finite non-negative
binary64 value is `u * 2^(-1074)` for a natural number `u` with at most 53
significant bits, so such a value is kept as the natural number `u`, and the
operations on them are exact integer arithmetic followed by rounding to
nearest, ties to even. -/

/-- The binary64 value `u * 2^(-1074)` is kept as `u`. -/
def binary64Scale : Nat := 2 ^ 1074

/-- The quotient `a / b` rounded to the nearest integer, ties to the even one. -/
def roundHalfEven (a b : Nat) : Nat :=
  let q := a / b
  let r := a % b
  if 2 * r < b then q
  else if b < 2 * r then q + 1
  else if q % 2 = 0 then q else q + 1

/-- The position of the leading bit of `n` (`0` for `n < 2`), by halving at
most `fuel` times. -/
def log2Fuel : Nat → Nat → Nat
  | 0, _ => 0
  | fuel + 1, n => if n < 2 then 0 else log2Fuel fuel (n / 2) + 1

/-- The position of the leading bit of `n`; `n` halvings always suffice. -/
def log2 (n : Nat) : Nat :=
  log2Fuel n n

/-- The rational `a / b` rounded to 53 significant bits with an integer
result: this is binary64 rounding when `a / b` is a value scaled by `2^1074`
(below `2^53` the spacing is `1`, the subnormal spacing). -/
def round53 (a b : Nat) : Nat :=
  let s := log2 (a / b) - 52
  roundHalfEven a (b * 2 ^ s) * 2 ^ s

/-- The binary64 quotient `completed / total` of two counts (integers below
`2^53` are binary64 values themselves). -/
def fdiv (completed total : Nat) : Nat :=
  round53 (completed * binary64Scale) total

/-- The binary64 product `x * 100`. -/
def fmul100 (x : Nat) : Nat :=
  round53 (x * 100) 1

/-- `Math.round(y)` for `y ≥ 0`: the integer nearest to `y`, the larger one
on a tie, which is `floor(y + 1/2)` computed exactly. -/
def mathRound (y : Nat) : Nat :=
  (y + binary64Scale / 2) / binary64Scale

/-- `total > 0 ? Math.round((completed / total) * 100) : 0`, the expression of
`App.jsx` line 99. -/
def percentage (completed total : Nat) : Nat :=
  if 0 < total then mathRound (fmul100 (fdiv completed total)) else 0

/-- `todos.filter(todo => todo.completed).length`. -/
def completedCount (todos : List Todo) : Nat :=
  (todos.filter (fun todo => todo.completed)).length

/-- `todos.filter(todo => !todo.completed).length`. -/
def pendingCount (todos : List Todo) : Nat :=
  (todos.filter (fun todo => !todo.completed)).length

/-- `todos.length`. -/
def totalCount (todos : List Todo) : Nat :=
  todos.length

/-- The four numbers of the stats dashboard. -/
structure Stats where
  total : Nat
  pending : Nat
  completed : Nat
  percentage : Nat
deriving DecidableEq, Repr

/-- The dashboard of `App.jsx` for the collection `todos`. -/
def stats (todos : List Todo) : Stats :=
  { total := totalCount todos
    pending := pendingCount todos
    completed := completedCount todos
    percentage := percentage (completedCount todos) (totalCount todos) }

namespace ProgressBar

/-- `const percentage = total > 0 ? Math.round((completed / total) * 100) : 0;`
of `ProgressBar({ completed, total })`. -/
def percentage (completed total : Nat) : Nat :=
  if 0 < total then mathRound (fmul100 (fdiv completed total)) else 0

end ProgressBar

/-- The value `floor(100 * completed / total + 1/2)` of exact arithmetic
(round half up), `0` when `total = 0`. -/
def exactPercentage (completed total : Nat) : Nat :=
  if 0 < total then (200 * completed + total) / (2 * total) else 0


/-! ## JSON values -/

/-- A JSON number as it is written: `(-1)^neg * mant * 10^exp`.  JavaScript
keeps the binary64 value nearest to it; two spellings of one number are
different values here, so values that are equal here are equal in JavaScript. -/
structure JSNum where
  neg : Bool
  mant : Nat
  exp : Int
deriving DecidableEq, Repr

/-- A value that `JSON.parse` returns.  An object keeps its members as they
are written, in order; a property is read from the last member with its key. -/
inductive JSVal where
  | null
  | bool (b : Bool)
  | num (n : JSNum)
  | str (s : JSString)
  | arr (items : List JSVal)
  | obj (members : List (JSString × JSVal))
deriving Repr

/-- The binary64 value of the number is `0` or `-0`: its magnitude is at most
`2^(-1075)`, half of the least positive binary64 value. -/
def JSNum.isZero (n : JSNum) : Bool :=
  if 0 ≤ n.exp then n.mant == 0
  else decide (n.mant * 2 ^ 1075 ≤ 10 ^ n.exp.natAbs)

/-! ## `JSON.parse`: tokens -/

/-- The tokens of JSON text (ECMA-404). -/
inductive Token where
  | lbracket
  | rbracket
  | lbrace
  | rbrace
  | comma
  | colon
  | str (s : JSString)
  | num (n : JSNum)
  | litTrue
  | litFalse
  | litNull
deriving DecidableEq, Repr

/-- JSON white space: space, TAB, LF, CR. -/
def isJSONWhiteSpace (c : Nat) : Bool :=
  c == 0x20 || c == 0x09 || c == 0x0A || c == 0x0D

/-- A decimal digit `0`..`9`. -/
def isDigit (c : Nat) : Bool :=
  48 ≤ c && c ≤ 57

/-- The number that a run of decimal digits writes. -/
def digitsVal (ds : List Nat) : Nat :=
  ds.foldl (fun acc d => acc * 10 + (d - 48)) 0

/-- The value of a hexadecimal digit. -/
def hexVal (c : Nat) : Option Nat :=
  if 48 ≤ c ∧ c ≤ 57 then some (c - 48)
  else if 97 ≤ c ∧ c ≤ 102 then some (c - 87)
  else if 65 ≤ c ∧ c ≤ 70 then some (c - 55)
  else none

/-- The code unit that the escape `\e` stands for, `e` one of `" \ / b f n r t`. -/
def unescape (e : Nat) : Option Nat :=
  if e = 34 then some 34
  else if e = 92 then some 92
  else if e = 47 then some 47
  else if e = 98 then some 8
  else if e = 102 then some 12
  else if e = 110 then some 10
  else if e = 114 then some 13
  else if e = 116 then some 9
  else none

/-- The rest of a string token after its opening quote: the string and what
follows the closing quote.  A code unit below `0x20` may not stand unescaped. -/
def lexString : List Nat → Option (JSString × List Nat)
  | [] => none
  | c :: rest =>
    if c = 34 then some ([], rest)
    else if c = 92 then
      match rest with
      | [] => none
      | e :: rest1 =>
        if e = 117 then
          match rest1 with
          | h1 :: h2 :: h3 :: h4 :: rest2 =>
            match hexVal h1, hexVal h2, hexVal h3, hexVal h4 with
            | some a, some b, some c, some d =>
              (lexString rest2).map
                (fun r => ((a * 4096 + b * 256 + c * 16 + d) :: r.1, r.2))
            | _, _, _, _ => none
          | _ => none
        else
          match unescape e with
          | some u => (lexString rest1).map (fun r => (u :: r.1, r.2))
          | none => none
    else if c < 32 then none
    else (lexString rest).map (fun r => (c :: r.1, r.2))

/-- An optional exponent part `e`/`E`, sign, digits at the head of `s`: its
value (`0` when there is none) and the rest; `none` when it has no digit. -/
def lexExponent (s : List Nat) : Option (Int × List Nat) :=
  match s with
  | [] => some (0, s)
  | c :: r =>
    if c = 101 ∨ c = 69 then
      let neg := decide (r.head? = some 45)
      let r1 := if r.head? = some 45 ∨ r.head? = some 43 then r.tail else r
      let ds := r1.takeWhile isDigit
      if ds = [] then none
      else some (if neg then -(digitsVal ds : Int) else (digitsVal ds : Int),
                 r1.dropWhile isDigit)
    else some (0, s)

/-- An optional fraction part `.` digits at the head of `s`: its digits (none
when there is no `.`) and the rest; `none` when no digit follows the `.`. -/
def lexFraction (s : List Nat) : Option (List Nat × List Nat) :=
  match s with
  | [] => some ([], s)
  | c :: r =>
    if c = 46 then
      if r.takeWhile isDigit = [] then none
      else some (r.takeWhile isDigit, r.dropWhile isDigit)
    else some ([], s)

/-- A number token at the head of `s`: `-`? int frac? exp?, the integer part
without a leading zero. -/
def lexNumber (s : List Nat) : Option (JSNum × List Nat) :=
  let neg := decide (s.head? = some 45)
  let s0 := if neg then s.tail else s
  let intDs := s0.takeWhile isDigit
  if intDs = [] ∨ (intDs.head? = some 48 ∧ 1 < intDs.length) then none
  else
    match lexFraction (s0.dropWhile isDigit) with
    | none => none
    | some (fracDs, s2) =>
      match lexExponent s2 with
      | none => none
      | some (e, s3) =>
        some ({ neg := neg, mant := digitsVal (intDs ++ fracDs),
                exp := e - (fracDs.length : Int) }, s3)

/-- The text `s` without the literal `lit` at its head, when it starts with it. -/
def dropLiteral : List Nat → List Nat → Option (List Nat)
  | [], s => some s
  | _ :: _, [] => none
  | l :: lit, c :: s => if l = c then dropLiteral lit s else none

/-- The token at the head of a text whose first code unit `c` is not white
space, and the text after the token. -/
def lexToken (c : Nat) (rest : List Nat) : Option (Token × List Nat) :=
  if c = 91 then some (Token.lbracket, rest)
  else if c = 93 then some (Token.rbracket, rest)
  else if c = 123 then some (Token.lbrace, rest)
  else if c = 125 then some (Token.rbrace, rest)
  else if c = 44 then some (Token.comma, rest)
  else if c = 58 then some (Token.colon, rest)
  else if c = 34 then (lexString rest).map (fun r => (Token.str r.1, r.2))
  else if c = 45 ∨ isDigit c = true then
    (lexNumber (c :: rest)).map (fun r => (Token.num r.1, r.2))
  else if c = 116 then (dropLiteral (js "rue") rest).map (fun r => (Token.litTrue, r))
  else if c = 102 then (dropLiteral (js "alse") rest).map (fun r => (Token.litFalse, r))
  else if c = 110 then (dropLiteral (js "ull") rest).map (fun r => (Token.litNull, r))
  else none

/-- The tokens of a JSON text; every step takes at least one code unit, and
`fuel` bounds the number of steps. -/
def lex : Nat → List Nat → Option (List Token)
  | 0, _ => none
  | _ + 1, [] => some []
  | fuel + 1, c :: rest =>
    if isJSONWhiteSpace c then lex fuel rest
    else
      match lexToken c rest with
      | none => none
      | some (t, rest1) => (lex fuel rest1).map (t :: ·)

/-! ## `JSON.parse`: grammar -/

mutual

/-- One JSON value at the head of the tokens, and the tokens after it. -/
def parseValue : Nat → List Token → Option (JSVal × List Token)
  | 0, _ => none
  | fuel + 1, ts =>
    match ts with
    | Token.litNull :: r => some (JSVal.null, r)
    | Token.litTrue :: r => some (JSVal.bool true, r)
    | Token.litFalse :: r => some (JSVal.bool false, r)
    | Token.num n :: r => some (JSVal.num n, r)
    | Token.str s :: r => some (JSVal.str s, r)
    | Token.lbracket :: Token.rbracket :: r => some (JSVal.arr [], r)
    | Token.lbracket :: r =>
      match parseElements fuel r with
      | some (vs, r1) => some (JSVal.arr vs, r1)
      | none => none
    | Token.lbrace :: Token.rbrace :: r => some (JSVal.obj [], r)
    | Token.lbrace :: r =>
      match parseMembers fuel r with
      | some (ms, r1) => some (JSVal.obj ms, r1)
      | none => none
    | _ => none

/-- The elements of a non-empty array up to its `]`, and the tokens after it. -/
def parseElements : Nat → List Token → Option (List JSVal × List Token)
  | 0, _ => none
  | fuel + 1, ts =>
    match parseValue fuel ts with
    | some (v, Token.comma :: r) =>
      match parseElements fuel r with
      | some (vs, r1) => some (v :: vs, r1)
      | none => none
    | some (v, Token.rbracket :: r) => some ([v], r)
    | _ => none

/-- The members of a non-empty object up to its closing brace, and the tokens
after it. -/
def parseMembers : Nat → List Token → Option (List (JSString × JSVal) × List Token)
  | 0, _ => none
  | fuel + 1, ts =>
    match ts with
    | Token.str k :: Token.colon :: r =>
      match parseValue fuel r with
      | some (v, Token.comma :: r1) =>
        match parseMembers fuel r1 with
        | some (ms, r2) => some ((k, v) :: ms, r2)
        | none => none
      | some (v, Token.rbrace :: r1) => some ([(k, v)], r1)
      | _ => none
    | _ => none

end

namespace JSON

/-- `JSON.parse(text)`: the value of the text, `none` when it throws a
`SyntaxError`.  A call of `parseValue`, `parseElements` or `parseMembers` with
fuel `f` calls with fuel `f - 1` after at most one call that takes no token,
so twice the number of tokens is fuel enough, as the length of the text is
for the lexer (`parse_fuel_irrelevant`). -/
def parse (text : JSString) : Option JSVal :=
  match lex (text.length + 1) text with
  | none => none
  | some ts =>
    match parseValue (2 * ts.length + 2) ts with
    | some (v, []) => some v
    | _ => none

end JSON
/-! ## The coercions of the load guard -/

/-- `ToBoolean(v)`: `null`, `false`, `0`, `-0` and `""` are falsy. -/
def truthy : JSVal → Bool
  | JSVal.null => false
  | JSVal.bool b => b
  | JSVal.num n => !n.isZero
  | JSVal.str s => !s.isEmpty
  | JSVal.arr _ => true
  | JSVal.obj _ => true

/-- The digits of a `0x`, `0o` or `0b` literal write a positive number: there
is a digit, every one passes `ok`, one is not `0`. -/
def radixPositive (ok : Nat → Bool) (ds : List Nat) : Bool :=
  !ds.isEmpty && ds.all ok && ds.any (fun d => d != 48)

/-- `StrUnsignedDecimalLiteral` with a positive binary64 value: `Infinity`, or
digits with an optional fraction and exponent, `5.` and `.5` included. -/
def unsignedDecimalPositive (s : List Nat) : Bool :=
  if s = js "Infinity" then true
  else
    let intDs := s.takeWhile isDigit
    let s1 := s.dropWhile isDigit
    let fracDs := if s1.head? = some 46 then s1.tail.takeWhile isDigit else []
    let s2 := if s1.head? = some 46 then s1.tail.dropWhile isDigit else s1
    if intDs = [] ∧ fracDs = [] then false
    else
      match lexExponent s2 with
      | some (e, []) =>
        !(JSNum.isZero { neg := false, mant := digitsVal (intDs ++ fracDs),
                         exp := e - (fracDs.length : Int) })
      | _ => false

/-- `ToNumber(s) > 0` for a string (`StringToNumber`): white space is trimmed,
the empty string is `0`, a text that is no `StringNumericLiteral` is `NaN`. -/
def stringGtZero (s : JSString) : Bool :=
  match trim s with
  | [] => false
  | c :: r =>
    if c = 48 ∧ (r.head? = some 120 ∨ r.head? = some 88) then
      radixPositive (fun d => (hexVal d).isSome) r.tail
    else if c = 48 ∧ (r.head? = some 111 ∨ r.head? = some 79) then
      radixPositive (fun d => 48 ≤ d && d ≤ 55) r.tail
    else if c = 48 ∧ (r.head? = some 98 ∨ r.head? = some 66) then
      radixPositive (fun d => 48 ≤ d && d ≤ 49) r.tail
    else if c = 45 then false
    else if c = 43 then unsignedDecimalPositive r
    else unsignedDecimalPositive (c :: r)

mutual

/-- `v > 0`: `ToPrimitive` then `ToNumber`.  An array becomes the string of
its elements joined by commas and an object `[object Object]`; `true` is `1`,
`null` is `0`. -/
def gtZero : JSVal → Bool
  | JSVal.null => false
  | JSVal.bool b => b
  | JSVal.num n => !n.neg && !n.isZero
  | JSVal.str s => stringGtZero s
  | JSVal.arr items => joinedGtZero items
  | JSVal.obj _ => false

/-- `ToNumber(items.join(",")) > 0`: no element gives `""`, which is `0`; two
elements or more give a text with a comma, which is `NaN`; one element gives
its own string (`""` for `null`, the digits of a number, `true` or `false`
for a boolean). -/
def joinedGtZero : List JSVal → Bool
  | [] => false
  | [JSVal.num n] => !n.neg && !n.isZero
  | [JSVal.str s] => stringGtZero s
  | [JSVal.arr items] => joinedGtZero items
  | _ => false

end

/-- The own property `key` of an object: the value of the last member with
that key. -/
def getProperty (key : JSString) (members : List (JSString × JSVal)) : Option JSVal :=
  (members.reverse.find? (fun m => m.1 == key)).map (·.2)

/-- `v.length > 0` for a truthy `v`: the length of an array or of a string,
the property `length` of an object, `undefined` (so `false`) on a number or a
boolean. -/
def lengthGtZero : JSVal → Bool
  | JSVal.arr items => decide (0 < items.length)
  | JSVal.str s => decide (0 < s.length)
  | JSVal.obj members =>
    match getProperty (js "length") members with
    | some v => gtZero v
    | none => false
  | _ => false

/-! ## Persistence (`App.jsx`, lines 34-43) -/

/-- How the mount effect can fail: `JSON.parse` throws a `SyntaxError`, and
neither the effect nor a component around it catches it. -/
inductive LoadError where
  | syntaxError
deriving DecidableEq, Repr

/-- The mount effect, from the value `localStorage.getItem('todos')` (`none`
for `null`, when the key holds nothing) to the value of `todos` after it:
```
const storedTodos = JSON.parse(localStorage.getItem('todos'));
if (storedTodos && storedTodos.length > 0) { setTodos(storedTodos); }
```
`JSON.parse(null)` parses the text `null`.  When the guard fails `todos` keeps
the `[]` of `useState([])`. -/
def load (stored : Option JSString) : Except LoadError JSVal :=
  match JSON.parse (stored.getD (js "null")) with
  | none => Except.error LoadError.syntaxError
  | some storedTodos =>
    if truthy storedTodos && lengthGtZero storedTodos then Except.ok storedTodos
    else Except.ok (JSVal.arr [])

/-! ## `JSON.stringify` of a collection -/

/-- The decimal digits of `n`, most significant first (`fuel` bounds their
number). -/
def natDigits : Nat → Nat → List Nat
  | 0, _ => []
  | fuel + 1, n =>
    if n < 10 then [48 + n] else natDigits fuel (n / 10) ++ [48 + n % 10]

/-- `Number::toString` of an integer: plain decimal digits, as for every
integer of magnitude below `10^21` (a time value is at most `8.64 * 10^15`). -/
def renderInt (i : Int) : List Nat :=
  if i < 0 then 45 :: natDigits (i.natAbs + 1) i.natAbs
  else natDigits (i.natAbs + 1) i.natAbs

/-- A lowercase hexadecimal digit. -/
def hexDigit (d : Nat) : Nat :=
  if d < 10 then 48 + d else 87 + d

/-- `UnicodeEscape(c)`: `\u` and four lowercase hexadecimal digits. -/
def unicodeEscape (c : Nat) : List Nat :=
  [92, 117, hexDigit (c / 4096 % 16), hexDigit (c / 256 % 16),
    hexDigit (c / 16 % 16), hexDigit (c % 16)]

/-- The leading half of a surrogate pair. -/
def isHighSurrogate (c : Nat) : Bool :=
  0xD800 ≤ c && c ≤ 0xDBFF

/-- The trailing half of a surrogate pair. -/
def isLowSurrogate (c : Nat) : Bool :=
  0xDC00 ≤ c && c ≤ 0xDFFF

/-- `QuoteJSONString` on one code unit that is no surrogate: the short
escapes, a `\u` escape below `0x20`, the code unit itself otherwise. -/
def quoteUnit (c : Nat) : List Nat :=
  if c = 8 then [92, 98]
  else if c = 9 then [92, 116]
  else if c = 10 then [92, 110]
  else if c = 12 then [92, 102]
  else if c = 13 then [92, 114]
  else if c = 34 then [92, 34]
  else if c = 92 then [92, 92]
  else if c < 32 then unicodeEscape c
  else [c]

/-- `QuoteJSONString` on one code unit that is not part of a surrogate pair:
a surrogate without its partner is written as a `\u` escape. -/
def quoteSingle (c : Nat) : List Nat :=
  if isHighSurrogate c || isLowSurrogate c then unicodeEscape c else quoteUnit c

/-- `QuoteJSONString` without the two quotes: a surrogate pair stands as it
is, every other code unit goes through `quoteSingle`. -/
def quoteBody : List Nat → List Nat
  | [] => []
  | [c] => quoteSingle c
  | c :: d :: rest =>
    if isHighSurrogate c && isLowSurrogate d then c :: d :: quoteBody rest
    else quoteSingle c ++ quoteBody (d :: rest)

/-- `JSON.stringify` of one task: its keys in the order of creation, `id`,
`todo`, `completed`. -/
def stringifyTodo (t : Todo) : List Nat :=
  js "\x7b\"id\":" ++ renderInt t.id ++ js ",\"todo\":\"" ++ quoteBody t.todo
    ++ js "\",\"completed\":" ++ (if t.completed then js "true" else js "false")
    ++ js "\x7d"

/-- The tasks of a non-empty collection, separated by commas. -/
def stringifyElements : List Todo → List Nat
  | [] => []
  | [t] => stringifyTodo t
  | t :: rest => stringifyTodo t ++ 44 :: stringifyElements rest

/-- `JSON.stringify(todos)`. -/
def stringify (todos : List Todo) : JSString :=
  91 :: stringifyElements todos ++ [93]

/-- The save effect `localStorage.setItem('todos', JSON.stringify(todos))`:
the value that the key `todos` holds after it. -/
def save (todos : List Todo) : Option JSString :=
  some (stringify todos)

/-- The JavaScript value of a task. -/
def Todo.toJS (t : Todo) : JSVal :=
  JSVal.obj
    [(js "id", JSVal.num { neg := decide (t.id < 0), mant := t.id.natAbs, exp := 0 }),
     (js "todo", JSVal.str t.todo),
     (js "completed", JSVal.bool t.completed)]

/-- The JavaScript value of a collection. -/
def toJS (todos : List Todo) : JSVal :=
  JSVal.arr (todos.map Todo.toJS)

/-! ## The tokens of a stringified collection -/

/-- The tokens of `stringifyTodo t`. -/
def todoTokens (t : Todo) : List Token :=
  [Token.lbrace, Token.str (js "id"), Token.colon,
    Token.num { neg := decide (t.id < 0), mant := t.id.natAbs, exp := 0 }, Token.comma,
    Token.str (js "todo"), Token.colon, Token.str t.todo, Token.comma,
    Token.str (js "completed"), Token.colon,
    if t.completed then Token.litTrue else Token.litFalse, Token.rbrace]

/-- The tokens of `stringifyElements todos`. -/
def elementsTokens : List Todo → List Token
  | [] => []
  | [t] => todoTokens t
  | t :: rest => todoTokens t ++ Token.comma :: elementsTokens rest

theorem trim_eq_nil_of_all (s : JSString) (h : ∀ ch ∈ s, isWhiteSpace ch = true) :
    trim s = [] := by
  have h1 : s.dropWhile isWhiteSpace = [] := by
    rw [List.dropWhile_eq_nil_iff]; exact h
  simp [trim, h1]

theorem updateTodo_of_absent (id : Int) (r : Todo) (c : List Todo)
    (h : ∀ t ∈ c, t.id ≠ id) : updateTodo id r c = c := by
  induction c with
  | nil => rfl
  | cons a l ih =>
    have ha : a.id ≠ id := h a (List.mem_cons_self _ _)
    have hl : ∀ t ∈ l, t.id ≠ id := fun t ht => h t (List.mem_cons_of_mem _ ht)
    have ih2 := ih hl
    simp only [updateTodo] at ih2 ⊢
    simp [ha, ih2]

theorem toggleComplete_of_absent (id : Int) (c : List Todo)
    (h : ∀ t ∈ c, t.id ≠ id) : toggleComplete id c = c := by
  induction c with
  | nil => rfl
  | cons a l ih =>
    have ha : a.id ≠ id := h a (List.mem_cons_self _ _)
    have hl : ∀ t ∈ l, t.id ≠ id := fun t ht => h t (List.mem_cons_of_mem _ ht)
    have ih2 := ih hl
    simp only [toggleComplete] at ih2 ⊢
    simp [ha, ih2]

theorem deleteTodo_of_absent (id : Int) (c : List Todo)
    (h : ∀ t ∈ c, t.id ≠ id) : deleteTodo id c = c := by
  unfold deleteTodo
  rw [List.filter_eq_self]
  intro t ht
  simpa using h t ht

theorem deleteTodo_absent (id : Int) (c : List Todo) :
    ∀ t ∈ deleteTodo id c, t.id ≠ id := by
  intro t ht
  have := (List.mem_filter.mp ht).2
  simpa using this

/-- A collection whose ids are pairwise distinct and that holds `id` splits
around the one task that carries it. -/
theorem split_at_id (id : Int) (c : List Todo) (hd : (ids c).Nodup)
    (hin : id ∈ ids c) :
    ∃ l₁ t l₂, c = l₁ ++ t :: l₂ ∧ t.id = id ∧ (∀ x ∈ l₁, x.id ≠ id) ∧
      (∀ x ∈ l₂, x.id ≠ id) := by
  unfold ids at hd hin
  obtain ⟨t, ht, hid⟩ := List.mem_map.mp hin
  obtain ⟨l₁, l₂, rfl⟩ := List.append_of_mem ht
  refine ⟨l₁, t, l₂, rfl, hid, ?_, ?_⟩
  · intro x hx hxe
    rw [List.map_append, List.map_cons] at hd
    have := (List.nodup_append.mp hd).2.2
    exact this (List.mem_map_of_mem _ hx) (by simp [hxe, hid])
  · intro x hx hxe
    rw [List.map_append, List.map_cons] at hd
    have h2 := (List.nodup_cons.mp (List.nodup_append.mp hd).2.1).1
    apply h2
    have : x.id ∈ l₂.map (·.id) := List.mem_map_of_mem _ hx
    simpa [hxe, hid] using this

theorem updateTodo_append (id : Int) (r : Todo) (a b : List Todo) :
    updateTodo id r (a ++ b) = updateTodo id r a ++ updateTodo id r b := by
  simp [updateTodo]

theorem toggleComplete_append (id : Int) (a b : List Todo) :
    toggleComplete id (a ++ b) = toggleComplete id a ++ toggleComplete id b := by
  simp [toggleComplete]

theorem deleteTodo_append (id : Int) (a b : List Todo) :
    deleteTodo id (a ++ b) = deleteTodo id a ++ deleteTodo id b := by
  simp [deleteTodo]

/-- Claim C1.  For every collection `c` and every text whose trimmed form is
not empty, submitting the text through the form's `add` (which calls `addTodo`)
yields the new task `{ id: now, todo: text, completed: false }` in front of `c`:
the length grows by one, the first element is the new task carrying that text,
and the remaining elements are `c` in its order. -/
theorem add_prepends (c : List Todo) (text : JSString) (now : Int)
    (h : trim text ≠ []) :
    (TodoForm.add text now c).2 =
        { id := now, todo := text, completed := false } :: c ∧
      (TodoForm.add text now c).2.length = c.length + 1 ∧
      (TodoForm.add text now c).2.head? =
        some { id := now, todo := text, completed := false } ∧
      (TodoForm.add text now c).2.tail = c := by
  have hne : (trim text).isEmpty = false := by
    cases hh : trim text with
    | nil => exact absurd hh h
    | cons a l => rfl
  simp [TodoForm.add, hne, addTodo]

theorem add_prepends_witness :
    trim (js "Buy milk") ≠ [] ∧
      (TodoForm.add (js "Buy milk") 1700000000000 []).2 =
        [{ id := 1700000000000, todo := js "Buy milk", completed := false }] :=
  ⟨by decide, (add_prepends [] (js "Buy milk") 1700000000000 (by decide)).1⟩

theorem getElem?_mid {α : Type} (l₁ : List α) (a : α) (l₂ : List α) :
    (l₁ ++ a :: l₂)[l₁.length]? = some a := by
  rw [List.getElem?_append_right (Nat.le_refl _)]
  simp

/-- Claim C2.  For a collection with pairwise distinct ids and an id that one
of its tasks carries, `toggleComplete id` keeps the length, and there is one
position, the one of the task with that id, where the task has its `completed`
negated and its `id` and `todo` unchanged; at every other position the task is
the one that was there. -/
theorem toggleComplete_flips_one (todos : List Todo) (id : Int)
    (hd : (ids todos).Nodup) (hin : id ∈ ids todos) :
    (toggleComplete id todos).length = todos.length ∧
      ∃ (i : Nat) (t : Todo), todos[i]? = some t ∧ t.id = id ∧
        (toggleComplete id todos)[i]? =
          some { id := t.id, todo := t.todo, completed := !t.completed } ∧
        ∀ j : Nat, j ≠ i → (toggleComplete id todos)[j]? = todos[j]? := by
  obtain ⟨l₁, t, l₂, rfl, hid, h1, h2⟩ := split_at_id id todos hd hin
  have hmid : toggleComplete id (t :: l₂) =
      { id := t.id, todo := t.todo, completed := !t.completed } :: l₂ := by
    have := toggleComplete_of_absent id l₂ h2
    simp only [toggleComplete] at this ⊢
    simp [hid, this]
  refine ⟨by simp [toggleComplete], l₁.length, t, getElem?_mid _ _ _, hid, ?_, ?_⟩
  · rw [toggleComplete_append, toggleComplete_of_absent id l₁ h1, hmid]
    exact getElem?_mid _ _ _
  · intro j hj
    rw [toggleComplete_append, toggleComplete_of_absent id l₁ h1, hmid]
    rcases Nat.lt_or_gt_of_ne hj with hlt | hgt
    · rw [List.getElem?_append_left hlt, List.getElem?_append_left hlt]
    · have hle : l₁.length ≤ j := Nat.le_of_lt hgt
      rw [List.getElem?_append_right hle, List.getElem?_append_right hle]
      obtain ⟨k, hk⟩ : ∃ k, j - l₁.length = k + 1 := ⟨j - l₁.length - 1, by omega⟩
      rw [hk]; rfl

theorem toggleComplete_flips_one_witness :
    (ids [⟨2, js "b", false⟩, ⟨1, js "a", false⟩]).Nodup ∧
      (1 : Int) ∈ ids [⟨2, js "b", false⟩, ⟨1, js "a", false⟩] ∧
      ((toggleComplete 1 [⟨2, js "b", false⟩, ⟨1, js "a", false⟩]).length =
          [(⟨2, js "b", false⟩ : Todo), ⟨1, js "a", false⟩].length ∧
        ∃ (i : Nat) (t : Todo),
          [(⟨2, js "b", false⟩ : Todo), ⟨1, js "a", false⟩][i]? = some t ∧ t.id = 1 ∧
          (toggleComplete 1 [⟨2, js "b", false⟩, ⟨1, js "a", false⟩])[i]? =
            some { id := t.id, todo := t.todo, completed := !t.completed } ∧
          ∀ j : Nat, j ≠ i →
            (toggleComplete 1 [⟨2, js "b", false⟩, ⟨1, js "a", false⟩])[j]? =
              [(⟨2, js "b", false⟩ : Todo), ⟨1, js "a", false⟩][j]?) :=
  ⟨by decide, by decide,
    toggleComplete_flips_one [⟨2, js "b", false⟩, ⟨1, js "a", false⟩] 1
      (by decide) (by decide)⟩

/-- Claim C3.  For a collection with pairwise distinct ids and an id that one
of its tasks carries, `deleteTodo id` removes exactly that task: the length
drops by one, no task of the result carries the id, the result is the
collection without the one task (the others in their order), and a second
`deleteTodo id` changes nothing. -/
theorem deleteTodo_removes_one (todos : List Todo) (id : Int)
    (hd : (ids todos).Nodup) (hin : id ∈ ids todos) :
    (deleteTodo id todos).length + 1 = todos.length ∧
      (∀ t ∈ deleteTodo id todos, t.id ≠ id) ∧
      (∃ l₁ t l₂, todos = l₁ ++ t :: l₂ ∧ t.id = id ∧ deleteTodo id todos = l₁ ++ l₂) ∧
      deleteTodo id (deleteTodo id todos) = deleteTodo id todos := by
  obtain ⟨l₁, t, l₂, rfl, hid, h1, h2⟩ := split_at_id id todos hd hin
  have hdel : deleteTodo id (l₁ ++ t :: l₂) = l₁ ++ l₂ := by
    rw [deleteTodo_append, deleteTodo_of_absent id l₁ h1]
    have h3 := deleteTodo_of_absent id l₂ h2
    simp only [deleteTodo] at h3 ⊢
    rw [List.filter_cons, h3]
    simp [hid]
  refine ⟨?_, deleteTodo_absent id _, ⟨l₁, t, l₂, rfl, hid, hdel⟩, ?_⟩
  · rw [hdel]; simp; omega
  · exact deleteTodo_of_absent id _ (deleteTodo_absent id _)

theorem deleteTodo_removes_one_witness :
    (ids [⟨3, js "c", true⟩, ⟨2, js "b", false⟩, ⟨1, js "a", false⟩]).Nodup ∧
      (2 : Int) ∈ ids [⟨3, js "c", true⟩, ⟨2, js "b", false⟩, ⟨1, js "a", false⟩] ∧
      deleteTodo 2 (deleteTodo 2 [⟨3, js "c", true⟩, ⟨2, js "b", false⟩, ⟨1, js "a", false⟩]) =
        deleteTodo 2 [⟨3, js "c", true⟩, ⟨2, js "b", false⟩, ⟨1, js "a", false⟩] :=
  ⟨by decide, by decide,
    (deleteTodo_removes_one [⟨3, js "c", true⟩, ⟨2, js "b", false⟩, ⟨1, js "a", false⟩] 2
      (by decide) (by decide)).2.2.2⟩

/-- Claim C4.  For an id that a task of the collection carries and any record
`r`, `updateTodo id r` keeps the length, puts `r` at every position that held a
task with that id (there is one), and leaves every other position as it was;
`editTodo` of a row is `updateTodo` with the row's record and the new text. -/
theorem updateTodo_replaces_in_place (todos : List Todo) (id : Int) (r : Todo)
    (hin : id ∈ ids todos) :
    (updateTodo id r todos).length = todos.length ∧
      (∀ (i : Nat) (t : Todo), todos[i]? = some t → t.id = id →
        (updateTodo id r todos)[i]? = some r) ∧
      (∀ (i : Nat) (t : Todo), todos[i]? = some t → t.id ≠ id →
        (updateTodo id r todos)[i]? = some t) ∧
      (∃ (i : Nat) (t : Todo), todos[i]? = some t ∧ t.id = id ∧
        (updateTodo id r todos)[i]? = some r) ∧
      (∀ (row : Todo) (todoMsg : JSString), TodoItem.editTodo row todoMsg todos =
        updateTodo row.id { id := row.id, todo := todoMsg, completed := row.completed }
          todos) := by
  have hpos : ∀ (i : Nat) (t : Todo), todos[i]? = some t →
      (updateTodo id r todos)[i]? = some (if t.id = id then r else t) := by
    intro i t ht
    simp [updateTodo, List.getElem?_map, ht]
  refine ⟨by simp [updateTodo], ?_, ?_, ?_, fun row todoMsg => rfl⟩
  · intro i t ht hid
    rw [hpos i t ht, if_pos hid]
  · intro i t ht hid
    rw [hpos i t ht, if_neg hid]
  · obtain ⟨t, ht, hid⟩ := List.mem_map.mp hin
    obtain ⟨i, hi⟩ := List.getElem?_of_mem ht
    exact ⟨i, t, hi, hid, by rw [hpos i t hi, if_pos hid]⟩

theorem updateTodo_replaces_in_place_witness :
    (1 : Int) ∈ ids [⟨2, js "b", false⟩, ⟨1, js "a", false⟩] ∧
      (updateTodo 1 ⟨1, js "Buy oat milk", false⟩
          [⟨2, js "b", false⟩, ⟨1, js "a", false⟩]).length =
        [(⟨2, js "b", false⟩ : Todo), ⟨1, js "a", false⟩].length :=
  ⟨by decide,
    (updateTodo_replaces_in_place [⟨2, js "b", false⟩, ⟨1, js "a", false⟩] 1
      ⟨1, js "Buy oat milk", false⟩ (by decide)).1⟩

/-- Claim C5.  For an id that no task of the collection carries,
`toggleComplete id`, `deleteTodo id` and `updateTodo id r` for any record `r`
each return the collection unchanged. -/
theorem absent_id_is_noop (todos : List Todo) (id : Int) (r : Todo)
    (h : id ∉ ids todos) :
    toggleComplete id todos = todos ∧ deleteTodo id todos = todos ∧
      updateTodo id r todos = todos := by
  have h' : ∀ t ∈ todos, t.id ≠ id := by
    intro t ht hid
    exact h (hid ▸ List.mem_map_of_mem (·.id) ht)
  exact ⟨toggleComplete_of_absent id todos h', deleteTodo_of_absent id todos h',
    updateTodo_of_absent id r todos h'⟩

theorem absent_id_is_noop_witness :
    (7 : Int) ∉ ids [⟨2, js "b", false⟩, ⟨1, js "a", true⟩] ∧
      toggleComplete 7 [⟨2, js "b", false⟩, ⟨1, js "a", true⟩] =
        [⟨2, js "b", false⟩, ⟨1, js "a", true⟩] ∧
      deleteTodo 7 [⟨2, js "b", false⟩, ⟨1, js "a", true⟩] =
        [⟨2, js "b", false⟩, ⟨1, js "a", true⟩] ∧
      updateTodo 7 ⟨9, js "z", true⟩ [⟨2, js "b", false⟩, ⟨1, js "a", true⟩] =
        [⟨2, js "b", false⟩, ⟨1, js "a", true⟩] :=
  ⟨by decide,
    absent_id_is_noop [⟨2, js "b", false⟩, ⟨1, js "a", true⟩] 7 ⟨9, js "z", true⟩
      (by decide)⟩

/-- Claim C10.  For every collection and every input that is empty or made of
white space only, the form's `add` leaves the collection (and the input field)
as they were: `addTodo` is not called. -/
theorem add_rejects_blank (todos : List Todo) (input : JSString) (now : Int)
    (h : ∀ ch ∈ input, isWhiteSpace ch = true) :
    TodoForm.add input now todos = (input, todos) := by
  simp [TodoForm.add, trim_eq_nil_of_all input h]

theorem add_rejects_blank_witness :
    (∀ ch ∈ js "   ", isWhiteSpace ch = true) ∧
      TodoForm.add (js "   ") 1700000000000 [⟨1, js "a", false⟩] =
        (js "   ", [⟨1, js "a", false⟩]) ∧
      TodoForm.add (js "") 1700000000000 [⟨1, js "a", false⟩] =
        (js "", [⟨1, js "a", false⟩]) :=
  ⟨by decide, add_rejects_blank [⟨1, js "a", false⟩] (js "   ") 1700000000000 (by decide),
    by decide⟩


theorem ids_updateTodo_same (id : Int) (r : Todo) (todos : List Todo) (h : r.id = id) :
    ids (updateTodo id r todos) = ids todos := by
  unfold ids updateTodo
  rw [List.map_map]
  apply List.map_congr_left
  intro p _
  by_cases hp : p.id = id
  · simp [hp, h]
  · simp [hp]

theorem ids_toggleComplete (id : Int) (todos : List Todo) :
    ids (toggleComplete id todos) = ids todos := by
  unfold ids toggleComplete
  rw [List.map_map]
  apply List.map_congr_left
  intro p _
  by_cases hp : p.id = id
  · simp [hp]
  · simp [hp]

theorem ids_deleteTodo (id : Int) (todos : List Todo) :
    ids (deleteTodo id todos) = (ids todos).filter (fun i => decide (i ≠ id)) := by
  unfold ids deleteTodo
  rw [List.filter_map]
  rfl

theorem ids_addTodo (now : Int) (d : TodoDraft) (todos : List Todo) :
    ids (addTodo now d todos) = now :: ids todos := rfl

theorem nodup_step (todos : List Todo) (a : Action) (hf : a.Fresh todos)
    (hd : (ids todos).Nodup) : (ids (step todos a)).Nodup := by
  cases a with
  | add now d =>
    simp only [step, ids_addTodo]
    exact List.nodup_cons.mpr ⟨hf, hd⟩
  | update id r =>
    simp only [step]
    rw [ids_updateTodo_same id r todos hf]; exact hd
  | delete id =>
    simp only [step]
    rw [ids_deleteTodo]; exact hd.filter _
  | toggle id =>
    simp only [step]
    rw [ids_toggleComplete]; exact hd

theorem nodup_runFrom (actions : List Action) :
    ∀ start : List Todo, (ids start).Nodup → AllFresh start actions →
      (ids (runFrom start actions)).Nodup := by
  induction actions with
  | nil => intro start hd _; exact hd
  | cons a rest ih =>
    intro start hd hf
    exact ih (step start a) (nodup_step start a hf.1 hd) hf.2

/-- Claim C8 as stated fails: after two `addTodo` calls at the clock readings
1 and 2, `updateTodo(1, r)` with a record `r` whose id is 2 leaves two tasks
with the id 2; and two `addTodo` calls at the same clock reading give two tasks
with the same id. -/
theorem ids_can_collide :
    ¬ (ids (run [Action.add 1 ⟨js "a", false⟩, Action.add 2 ⟨js "b", false⟩,
          Action.update 1 ⟨2, js "c", false⟩])).Nodup ∧
      ¬ (ids (run [Action.add 1 ⟨js "a", false⟩, Action.add 1 ⟨js "b", false⟩])).Nodup := by
  decide

/-- Claim C8, as the code has it.  From the empty collection, after any
sequence of store operations in which every `addTodo` has a clock reading that
is not the id of a task then in the collection and every `updateTodo` has a
replacement record with the id it is addressed to, the ids are pairwise
distinct; `addTodo` puts its clock reading in front of the ids, such an
`updateTodo` and every `toggleComplete` keep the list of ids, and `deleteTodo`
keeps the ids other than its own. -/
theorem ids_distinct_of_fresh (actions : List Action) (h : AllFresh [] actions) :
    (ids (run actions)).Nodup ∧
      (∀ (todos : List Todo) (now : Int) (d : TodoDraft),
        ids (step todos (Action.add now d)) = now :: ids todos) ∧
      (∀ (todos : List Todo) (id : Int) (r : Todo), r.id = id →
        ids (step todos (Action.update id r)) = ids todos) ∧
      (∀ (todos : List Todo) (id : Int),
        ids (step todos (Action.toggle id)) = ids todos) ∧
      (∀ (todos : List Todo) (id : Int),
        ids (step todos (Action.delete id)) =
          (ids todos).filter (fun i => decide (i ≠ id))) :=
  ⟨nodup_runFrom actions [] List.nodup_nil h,
    fun todos now d => ids_addTodo now d todos,
    fun todos id r hr => ids_updateTodo_same id r todos hr,
    fun todos id => ids_toggleComplete id todos,
    fun todos id => ids_deleteTodo id todos⟩

theorem ids_distinct_of_fresh_witness :
    AllFresh [] [Action.add 1 ⟨js "a", false⟩, Action.add 2 ⟨js "b", false⟩,
        Action.update 1 ⟨1, js "c", false⟩, Action.toggle 2, Action.delete 1] ∧
      (ids (run [Action.add 1 ⟨js "a", false⟩, Action.add 2 ⟨js "b", false⟩,
        Action.update 1 ⟨1, js "c", false⟩, Action.toggle 2, Action.delete 1])).Nodup :=
  ⟨by decide,
    (ids_distinct_of_fresh [Action.add 1 ⟨js "a", false⟩, Action.add 2 ⟨js "b", false⟩,
        Action.update 1 ⟨1, js "c", false⟩, Action.toggle 2, Action.delete 1]
      (by decide)).1⟩

/-- Claim C9 at its failing input.  The form accepts the text `a` at the clock
reading 1; on the row of that task the edit button makes the field editable,
the field is cleared, and `Enter` calls `editTodo`, which stores the empty text:
the collection then holds a task whose trimmed text is empty. -/
theorem editTodo_stores_blank_text :
    (TodoForm.add (js "a") 1 []).2 = [⟨1, js "a", false⟩] ∧
      (TodoItem.onEditClick ⟨1, js "a", false⟩ (TodoItem.mount ⟨1, js "a", false⟩)
          [⟨1, js "a", false⟩]) =
        (⟨true, js "a"⟩, [⟨1, js "a", false⟩]) ∧
      TodoItem.onChange (js "") ⟨true, js "a"⟩ = ⟨true, js ""⟩ ∧
      (TodoItem.onKeyDown (js "Enter") ⟨1, js "a", false⟩ ⟨true, js ""⟩
          [⟨1, js "a", false⟩]) =
        (⟨false, js ""⟩, [⟨1, js "", false⟩]) ∧
      trim (js "") = [] := by
  decide


/-! ### Digits -/

theorem isDigit_digit (d : Nat) (h : d < 10) : isDigit (48 + d) = true := by
  simp [isDigit]; omega

theorem digitsVal_append_one (l : List Nat) (d : Nat) :
    digitsVal (l ++ [d]) = digitsVal l * 10 + (d - 48) := by
  simp [digitsVal, List.foldl_append]

theorem natDigits_all (fuel n : Nat) : ∀ d ∈ natDigits fuel n, isDigit d = true := by
  induction fuel generalizing n with
  | zero => intro d hd; simp [natDigits] at hd
  | succ f ih =>
    intro d hd
    unfold natDigits at hd
    split at hd
    · rename_i h
      simp at hd; subst hd; exact isDigit_digit n h
    · rcases List.mem_append.mp hd with h1 | h1
      · exact ih _ d h1
      · simp at h1; subst h1; exact isDigit_digit _ (Nat.mod_lt _ (by decide))

theorem natDigits_val (fuel n : Nat) (h : n < fuel) : digitsVal (natDigits fuel n) = n := by
  induction fuel generalizing n with
  | zero => omega
  | succ f ih =>
    unfold natDigits
    split
    · simp [digitsVal]
    · rename_i h10
      rw [digitsVal_append_one, ih (n / 10) (by omega)]
      omega

theorem natDigits_ne_nil (fuel n : Nat) : natDigits (fuel + 1) n ≠ [] := by
  unfold natDigits
  split <;> simp

theorem natDigits_head (fuel n : Nat) (h : n < fuel) (hn : 0 < n) :
    ∃ d rest, natDigits fuel n = d :: rest ∧ d ≠ 48 ∧ isDigit d = true := by
  induction fuel generalizing n with
  | zero => omega
  | succ f ih =>
    unfold natDigits
    split
    · rename_i h10
      exact ⟨48 + n, [], rfl, by omega, isDigit_digit n h10⟩
    · rename_i h10
      obtain ⟨d, rest, he, hd, hdig⟩ := ih (n / 10) (by omega) (by omega)
      exact ⟨d, rest ++ [48 + n % 10], by rw [he]; rfl, hd, hdig⟩

theorem natDigits_zero (fuel : Nat) : natDigits (fuel + 1) 0 = [48] := by
  simp [natDigits]

theorem takeWhile_append_stop {p : Nat → Bool} (l : List Nat) (x : Nat) (r : List Nat)
    (hl : ∀ a ∈ l, p a = true) (hx : p x = false) :
    (l ++ x :: r).takeWhile p = l := by
  induction l with
  | nil => simp [List.takeWhile, hx]
  | cons a l ih =>
    have ha := hl a (List.mem_cons_self _ _)
    simp only [List.cons_append, List.takeWhile_cons, ha, if_true]
    rw [ih (fun b hb => hl b (List.mem_cons_of_mem _ hb))]

theorem dropWhile_append_stop {p : Nat → Bool} (l : List Nat) (x : Nat) (r : List Nat)
    (hl : ∀ a ∈ l, p a = true) (hx : p x = false) :
    (l ++ x :: r).dropWhile p = x :: r := by
  induction l with
  | nil => simp [List.dropWhile, hx]
  | cons a l ih =>
    have ha := hl a (List.mem_cons_self _ _)
    simp only [List.cons_append, List.dropWhile_cons, ha, if_true]
    rw [ih (fun b hb => hl b (List.mem_cons_of_mem _ hb))]

/-- The digits of a natural number, followed by a comma, are read back. -/
theorem lexNumber_natDigits (n : Nat) (r : List Nat) :
    lexNumber (natDigits (n + 1) n ++ 44 :: r) =
      some ({ neg := false, mant := n, exp := 0 }, 44 :: r) := by
  have hall := natDigits_all (n + 1) n
  have hval := natDigits_val (n + 1) n (Nat.lt_succ_self n)
  have h44 : isDigit 44 = false := by decide
  have hhead : (natDigits (n + 1) n ++ 44 :: r).head? ≠ some 45 := by
    rcases Nat.eq_zero_or_pos n with h0 | hpos
    · subst h0; simp [natDigits]
    · obtain ⟨d, rest, he, _, hdig⟩ := natDigits_head (n + 1) n (Nat.lt_succ_self n) hpos
      rw [he]
      simp only [List.cons_append, List.head?_cons, ne_eq, Option.some.injEq]
      intro h; subst h; simp [isDigit] at hdig
  have hlead : ¬ ((natDigits (n + 1) n).head? = some 48 ∧ 1 < (natDigits (n + 1) n).length) := by
    rcases Nat.eq_zero_or_pos n with h0 | hpos
    · subst h0; simp [natDigits]
    · obtain ⟨d, rest, he, hd, _⟩ := natDigits_head (n + 1) n (Nat.lt_succ_self n) hpos
      rw [he]; simp [hd]
  unfold lexNumber
  simp only [hhead, decide_False, Bool.false_eq_true, if_false,
    takeWhile_append_stop _ 44 r hall h44, dropWhile_append_stop _ 44 r hall h44,
    natDigits_ne_nil, hlead, or_self]
  simp [lexFraction, lexExponent, hval]

theorem lexNumber_renderInt (i : Int) (r : List Nat) :
    lexNumber (renderInt i ++ 44 :: r) =
      some ({ neg := decide (i < 0), mant := i.natAbs, exp := 0 }, 44 :: r) := by
  have hall := natDigits_all (i.natAbs + 1) i.natAbs
  have hval := natDigits_val (i.natAbs + 1) i.natAbs (Nat.lt_succ_self _)
  have h44 : isDigit 44 = false := by decide
  by_cases hi : i < 0
  · have hpos : 0 < i.natAbs := by omega
    have hlead : ¬ ((natDigits (i.natAbs + 1) i.natAbs).head? = some 48 ∧
        1 < (natDigits (i.natAbs + 1) i.natAbs).length) := by
      obtain ⟨d, rest, he, hd, _⟩ :=
        natDigits_head (i.natAbs + 1) i.natAbs (Nat.lt_succ_self _) hpos
      rw [he]; simp [hd]
    unfold lexNumber renderInt
    simp only [hi, if_true, List.cons_append, List.head?_cons, decide_True, List.tail_cons,
      takeWhile_append_stop _ 44 r hall h44, dropWhile_append_stop _ 44 r hall h44,
      natDigits_ne_nil, hlead, or_self, if_false]
    simp [lexFraction, lexExponent, hval]
  · have h := lexNumber_natDigits i.natAbs r
    unfold renderInt
    simp only [hi, if_false, decide_False]
    exact h

/-! ### Strings -/

theorem hexVal_hexDigit (d : Nat) (h : d < 16) : hexVal (hexDigit d) = some d := by
  unfold hexDigit hexVal
  by_cases h10 : d < 10
  · simp only [h10, if_true]
    rw [if_pos (by omega)]
    simp
  · simp only [h10, if_false]
    rw [if_neg (by omega), if_pos (by omega)]
    congr 1; omega

theorem lexString_quote (rest : List Nat) : lexString (34 :: rest) = some ([], rest) := by
  rw [lexString.eq_def]; simp

theorem lexString_cons_plain (c : Nat) (t : List Nat) (h34 : c ≠ 34) (h92 : c ≠ 92)
    (h32 : ¬ c < 32) :
    lexString (c :: t) = (lexString t).map (fun r => (c :: r.1, r.2)) := by
  rw [lexString.eq_def]
  simp [h34, h92, h32]

theorem lexString_unicodeEscape (c : Nat) (t : List Nat) (h : c < 65536) :
    lexString (unicodeEscape c ++ t) = (lexString t).map (fun r => (c :: r.1, r.2)) := by
  have e : c / 4096 % 16 * 4096 + c / 256 % 16 * 256 + c / 16 % 16 * 16 + c % 16 = c := by
    omega
  unfold unicodeEscape
  simp only [List.cons_append, List.nil_append]
  rw [lexString.eq_def]
  simp only [show (92 : Nat) ≠ 34 by decide, if_false, if_true]
  simp only [hexVal_hexDigit _ (Nat.mod_lt _ (by decide : 0 < 16)), e]

theorem lexString_escape (e u : Nat) (t : List Nat) (he : e ≠ 117)
    (hu : unescape e = some u) :
    lexString (92 :: e :: t) = (lexString t).map (fun r => (u :: r.1, r.2)) := by
  rw [lexString.eq_def]
  simp [he, hu]

theorem lexString_quoteUnit (c : Nat) (t : List Nat) :
    lexString (quoteUnit c ++ t) = (lexString t).map (fun r => (c :: r.1, r.2)) := by
  unfold quoteUnit
  split
  · rename_i h; subst h; exact lexString_escape 98 8 t (by decide) (by decide)
  split
  · rename_i h; subst h; exact lexString_escape 116 9 t (by decide) (by decide)
  split
  · rename_i h; subst h; exact lexString_escape 110 10 t (by decide) (by decide)
  split
  · rename_i h; subst h; exact lexString_escape 102 12 t (by decide) (by decide)
  split
  · rename_i h; subst h; exact lexString_escape 114 13 t (by decide) (by decide)
  split
  · rename_i h; subst h; exact lexString_escape 34 34 t (by decide) (by decide)
  split
  · rename_i h; subst h; exact lexString_escape 92 92 t (by decide) (by decide)
  split
  · rename_i h; exact lexString_unicodeEscape c t (by omega)
  · rename_i h1 h2 h3 h4 h5 h6 h7 h8
    exact lexString_cons_plain c t h6 h7 h8

theorem lexString_quoteSingle (c : Nat) (t : List Nat) :
    lexString (quoteSingle c ++ t) = (lexString t).map (fun r => (c :: r.1, r.2)) := by
  unfold quoteSingle
  split
  · rename_i h
    apply lexString_unicodeEscape
    simp [isHighSurrogate, isLowSurrogate] at h
    omega
  · exact lexString_quoteUnit c t

/-- A quoted string is read back, whatever follows its closing quote. -/
theorem lexString_quoteBody (s : JSString) (rest : List Nat) :
    lexString (quoteBody s ++ 34 :: rest) = some (s, rest) := by
  induction s using quoteBody.induct with
  | case1 => simp [quoteBody, lexString_quote]
  | case2 c =>
    simp only [quoteBody]
    rw [lexString_quoteSingle, lexString_quote]
    rfl
  | case3 c d tl hpair ih =>
    simp only [quoteBody, hpair, if_true, List.cons_append]
    simp only [Bool.and_eq_true, isHighSurrogate, isLowSurrogate, decide_eq_true_eq] at hpair
    rw [lexString_cons_plain c _ (by omega) (by omega) (by omega),
      lexString_cons_plain d _ (by omega) (by omega) (by omega), ih]
    rfl
  | case4 c d tl hpair ih =>
    simp only [quoteBody, hpair, Bool.false_eq_true, if_false]
    rw [List.append_assoc, lexString_quoteSingle, ih]
    rfl


/-! ### Tokens of a stringified task -/

theorem lex_lbrace (f : Nat) (r : List Nat) :
    lex (f + 1) (123 :: r) = (lex f r).map (Token.lbrace :: ·) := by
  simp [lex, lexToken, isJSONWhiteSpace]

theorem lex_rbrace (f : Nat) (r : List Nat) :
    lex (f + 1) (125 :: r) = (lex f r).map (Token.rbrace :: ·) := by
  simp [lex, lexToken, isJSONWhiteSpace]

theorem lex_lbracket (f : Nat) (r : List Nat) :
    lex (f + 1) (91 :: r) = (lex f r).map (Token.lbracket :: ·) := by
  simp [lex, lexToken, isJSONWhiteSpace]

theorem lex_rbracket (f : Nat) (r : List Nat) :
    lex (f + 1) (93 :: r) = (lex f r).map (Token.rbracket :: ·) := by
  simp [lex, lexToken, isJSONWhiteSpace]

theorem lex_comma (f : Nat) (r : List Nat) :
    lex (f + 1) (44 :: r) = (lex f r).map (Token.comma :: ·) := by
  simp [lex, lexToken, isJSONWhiteSpace]

theorem lex_colon (f : Nat) (r : List Nat) :
    lex (f + 1) (58 :: r) = (lex f r).map (Token.colon :: ·) := by
  simp [lex, lexToken, isJSONWhiteSpace]

theorem lex_string (f : Nat) (s : JSString) (r : List Nat) :
    lex (f + 1) (34 :: (quoteBody s ++ 34 :: r)) = (lex f r).map (Token.str s :: ·) := by
  simp [lex, lexToken, isJSONWhiteSpace, lexString_quoteBody]

theorem lex_true (f : Nat) (r : List Nat) :
    lex (f + 1) (116 :: 114 :: 117 :: 101 :: r) = (lex f r).map (Token.litTrue :: ·) := by
  simp [lex, lexToken, isJSONWhiteSpace, isDigit, js, utf16, dropLiteral]

theorem lex_false (f : Nat) (r : List Nat) :
    lex (f + 1) (102 :: 97 :: 108 :: 115 :: 101 :: r) =
      (lex f r).map (Token.litFalse :: ·) := by
  simp [lex, lexToken, isJSONWhiteSpace, isDigit, js, utf16, dropLiteral]

theorem renderInt_head (i : Int) :
    ∃ c tl, renderInt i = c :: tl ∧ (c = 45 ∨ isDigit c = true) := by
  unfold renderInt
  split
  · exact ⟨45, _, rfl, Or.inl rfl⟩
  · rcases Nat.eq_zero_or_pos i.natAbs with h0 | hpos
    · rw [h0]; exact ⟨48, [], by simp [natDigits], Or.inr (by decide)⟩
    · obtain ⟨d, rest, he, _, hdig⟩ :=
        natDigits_head (i.natAbs + 1) i.natAbs (Nat.lt_succ_self _) hpos
      exact ⟨d, rest, he, Or.inr hdig⟩

theorem lex_number (f : Nat) (i : Int) (r : List Nat) :
    lex (f + 1) (renderInt i ++ 44 :: r) =
      (lex f (44 :: r)).map
        (Token.num { neg := decide (i < 0), mant := i.natAbs, exp := 0 } :: ·) := by
  have hnum := lexNumber_renderInt i r
  obtain ⟨c, tl, he, hc⟩ := renderInt_head i
  rw [he] at hnum ⊢
  have hc' : 45 ≤ c ∧ c ≤ 57 := by
    rcases hc with h | h
    · omega
    · simp [isDigit] at h; omega
  have h1 : isJSONWhiteSpace c = false := by
    simp [isJSONWhiteSpace]; omega
  simp only [List.cons_append] at hnum ⊢
  have htok : lexToken c (tl ++ 44 :: r) =
      some (Token.num { neg := decide (i < 0), mant := i.natAbs, exp := 0 }, 44 :: r) := by
    unfold lexToken
    rw [if_neg (by omega), if_neg (by omega), if_neg (by omega), if_neg (by omega),
      if_neg (by omega), if_neg (by omega), if_neg (by omega), if_pos hc, hnum]
    rfl
  rw [lex]
  simp only [h1, Bool.false_eq_true, if_false, htok]

theorem lex_stringifyTodo (f : Nat) (t : Todo) (r : List Nat) :
    lex (f + 13) (stringifyTodo t ++ r) = (lex f r).map (todoTokens t ++ ·) := by
  have e1 : js "\x7b\"id\":" = 123 :: 34 :: (quoteBody (js "id") ++ 34 :: [58]) := by decide
  have e2 : js ",\"todo\":\"" = 44 :: 34 :: (quoteBody (js "todo") ++ 34 :: [58, 34]) := by
    decide
  have e3 : js "\",\"completed\":" =
      34 :: 44 :: 34 :: (quoteBody (js "completed") ++ 34 :: [58]) := by decide
  have e4 : js "true" = [116, 114, 117, 101] := by decide
  have e5 : js "false" = [102, 97, 108, 115, 101] := by decide
  have e6 : js "\x7d" = [125] := by decide
  unfold stringifyTodo
  rw [e1, e2, e3, e4, e5, e6]
  simp only [List.cons_append, List.append_assoc, List.nil_append]
  rw [lex_lbrace, lex_string, lex_colon, lex_number, lex_comma, lex_string, lex_colon,
    lex_string, lex_comma, lex_string, lex_colon]
  cases hcomp : t.completed
  · simp only [Bool.false_eq_true, if_false, List.cons_append, List.nil_append]
    rw [lex_false, lex_rbrace]
    cases lex f r <;> simp [todoTokens, hcomp]
  · simp only [if_true, List.cons_append, List.nil_append]
    rw [lex_true, lex_rbrace]
    cases lex f r <;> simp [todoTokens, hcomp]


/-! ### Tokens of a stringified collection -/

theorem todoTokens_length (t : Todo) : (todoTokens t).length = 13 := rfl

theorem stringifyTodo_length (t : Todo) : 13 ≤ (stringifyTodo t).length := by
  have e1 : (js "\x7b\"id\":").length = 6 := by decide
  have e2 : (js ",\"todo\":\"").length = 9 := by decide
  simp only [stringifyTodo, List.length_append, e1, e2]
  omega

theorem elementsTokens_length_le (todos : List Todo) :
    (elementsTokens todos).length ≤ (stringifyElements todos).length := by
  induction todos with
  | nil => simp [elementsTokens, stringifyElements]
  | cons t rest ih =>
    cases rest with
    | nil =>
      simp only [elementsTokens, stringifyElements, todoTokens_length]
      exact stringifyTodo_length t
    | cons t2 rest2 =>
      have := stringifyTodo_length t
      simp only [elementsTokens, stringifyElements, List.length_append, List.length_cons,
        todoTokens_length] at ih ⊢
      omega

theorem length_le_elementsTokens (todos : List Todo) :
    todos.length ≤ (elementsTokens todos).length := by
  induction todos with
  | nil => simp
  | cons t rest ih =>
    cases rest with
    | nil => simp [elementsTokens, todoTokens_length]
    | cons t2 rest2 =>
      simp only [elementsTokens, List.length_append, List.length_cons,
        todoTokens_length] at ih ⊢
      omega

theorem lex_stringifyElements (todos : List Todo) :
    ∀ (f : Nat) (r : List Nat),
      lex (f + (elementsTokens todos).length) (stringifyElements todos ++ r) =
        (lex f r).map (elementsTokens todos ++ ·) := by
  induction todos with
  | nil => intro f r; simp [elementsTokens, stringifyElements]
  | cons t rest ih =>
    intro f r
    cases rest with
    | nil =>
      simp only [elementsTokens, stringifyElements, todoTokens_length]
      exact lex_stringifyTodo f t r
    | cons t2 rest2 =>
      have ih' := ih f r
      simp only [elementsTokens, stringifyElements, List.length_append, List.length_cons,
        todoTokens_length, List.append_assoc, List.cons_append] at ih' ⊢
      have hf : f + (13 + ((elementsTokens (t2 :: rest2)).length + 1)) =
          (f + (elementsTokens (t2 :: rest2)).length + 1) + 13 := by omega
      rw [hf, lex_stringifyTodo, lex_comma, ih']
      cases lex f r <;> simp

theorem lex_stringify (todos : List Todo) (fuel : Nat)
    (h : (elementsTokens todos).length + 3 ≤ fuel) :
    lex fuel (stringify todos) =
      some (Token.lbracket :: (elementsTokens todos ++ [Token.rbracket])) := by
  obtain ⟨f, rfl⟩ : ∃ f, fuel = ((f + 1 + 1) + (elementsTokens todos).length) + 1 :=
    ⟨fuel - (elementsTokens todos).length - 3, by omega⟩
  unfold stringify
  rw [List.cons_append, lex_lbracket, lex_stringifyElements, lex_rbracket]
  simp [lex]

/-! ### Parsing the tokens of a collection -/

theorem parseValue_todoTokens (f : Nat) (t : Todo) (r : List Token) :
    parseValue (f + 5) (todoTokens t ++ r) = some (t.toJS, r) := by
  cases hcomp : t.completed <;>
    simp [todoTokens, parseValue, parseMembers, Todo.toJS, hcomp]

theorem parseElements_elementsTokens (todos : List Todo) (hne : todos ≠ []) :
    ∀ (f : Nat) (r : List Token),
      parseElements (f + todos.length + 5) (elementsTokens todos ++ Token.rbracket :: r) =
        some (todos.map Todo.toJS, r) := by
  induction todos with
  | nil => exact absurd rfl hne
  | cons t rest ih =>
    intro f r
    cases rest with
    | nil =>
      simp only [elementsTokens, List.length_cons, List.length_nil]
      rw [(by omega : f + (0 + 1) + 5 = (f + 1 + 5))]
      rw [parseElements, parseValue_todoTokens]
      simp
    | cons t2 rest2 =>
      have ih' := ih (by simp) f r
      simp only [elementsTokens, List.length_cons, List.append_assoc, List.cons_append,
        List.map_cons] at ih' ⊢
      rw [(by omega : f + (rest2.length + 1 + 1) + 5 = (f + (rest2.length + 1) + 5) + 1)]
      rw [parseElements, parseValue_todoTokens]
      simp only
      rw [ih']

theorem elementsTokens_head (t : Todo) (rest : List Todo) :
    ∃ tl, elementsTokens (t :: rest) = Token.lbrace :: tl := by
  cases rest with
  | nil => exact ⟨_, rfl⟩
  | cons t2 rest2 => exact ⟨_, rfl⟩

theorem parseValue_stringify_tokens (todos : List Todo) (fuel : Nat)
    (h : todos.length + 6 ≤ fuel) :
    parseValue fuel (Token.lbracket :: (elementsTokens todos ++ [Token.rbracket])) =
      some (toJS todos, []) := by
  obtain ⟨f, rfl⟩ : ∃ f, fuel = (f + todos.length + 5) + 1 :=
    ⟨fuel - todos.length - 6, by omega⟩
  cases todos with
  | nil => simp [elementsTokens, parseValue, toJS]
  | cons t rest =>
    have hp := parseElements_elementsTokens (t :: rest) (by simp) f []
    obtain ⟨tl, htl⟩ := elementsTokens_head t rest
    rw [htl] at hp ⊢
    simp only [List.cons_append, List.length_cons] at hp ⊢
    simp [parseValue, hp, toJS]

/-- `JSON.parse` reads back what `JSON.stringify` writes for a collection. -/
theorem parse_stringify (todos : List Todo) :
    JSON.parse (stringify todos) = some (toJS todos) := by
  have hlen : (stringify todos).length = (stringifyElements todos).length + 2 := by
    simp [stringify]
  have h1 := elementsTokens_length_le todos
  have h2 := length_le_elementsTokens todos
  unfold JSON.parse
  rw [lex_stringify todos _ (by omega)]
  simp only
  rw [parseValue_stringify_tokens todos _ (by simp; omega)]


/-! ### The fuel of `JSON.parse` is enough -/

theorem map_cons_fst_eq (x : Nat) (o : Option (JSString × List Nat)) (str : JSString)
    (r : List Nat) (h : o.map (fun q => (x :: q.1, q.2)) = some (str, r)) :
    ∃ s', o = some (s', r) := by
  cases o with
  | none => simp at h
  | some p =>
    simp only [Option.map_some', Option.some.injEq, Prod.mk.injEq] at h
    exact ⟨p.1, by rw [← h.2]⟩

theorem lexString_shorter_aux (n : Nat) :
    ∀ (s : List Nat), s.length ≤ n → ∀ (str : JSString) (r : List Nat),
      lexString s = some (str, r) → r.length < s.length := by
  induction n with
  | zero =>
    intro s hs str r h
    have : s = [] := List.length_eq_zero.mp (by omega)
    subst this
    simp [lexString] at h
  | succ n ih =>
    intro s hs str r h
    cases s with
    | nil => simp [lexString] at h
    | cons c rest =>
      simp only [List.length_cons] at hs ⊢
      rw [lexString.eq_def] at h
      simp only at h
      by_cases h34 : c = 34
      · simp only [h34, if_true, Option.some.injEq, Prod.mk.injEq] at h
        rw [← h.2]; omega
      · simp only [h34, if_false] at h
        by_cases h92 : c = 92
        · simp only [h92, if_true] at h
          cases rest with
          | nil => simp at h
          | cons e rest1 =>
            simp only [List.length_cons] at hs ⊢
            by_cases hu : e = 117
            · simp only [hu, if_true] at h
              match rest1, h with
              | h1 :: h2 :: h3 :: h4 :: rest2, h =>
                simp only [List.length_cons] at hs ⊢
                cases hv1 : hexVal h1 <;> cases hv2 : hexVal h2 <;> cases hv3 : hexVal h3 <;>
                  cases hv4 : hexVal h4 <;> simp only [hv1, hv2, hv3, hv4] at h <;>
                  try (simp at h; done)
                obtain ⟨s', hl⟩ := map_cons_fst_eq _ _ _ _ h
                have := ih rest2 (by omega) s' r hl
                omega
              | [], h => simp at h
              | [_], h => simp at h
              | [_, _], h => simp at h
              | [_, _, _], h => simp at h
            · simp only [hu, if_false] at h
              cases hue : unescape e with
              | none => simp [hue] at h
              | some u =>
                simp only [hue] at h
                obtain ⟨s', hl⟩ := map_cons_fst_eq _ _ _ _ h
                have := ih rest1 (by omega) s' r hl
                omega
        · simp only [h92, if_false] at h
          by_cases h32 : c < 32
          · simp [h32] at h
          · simp only [h32, if_false] at h
            obtain ⟨s', hl⟩ := map_cons_fst_eq _ _ _ _ h
            have := ih rest (by omega) s' r hl
            omega

theorem lexString_shorter (s : List Nat) (str : JSString) (r : List Nat)
    (h : lexString s = some (str, r)) : r.length < s.length :=
  lexString_shorter_aux s.length s (Nat.le_refl _) str r h

theorem dropWhile_length_le (p : Nat → Bool) (l : List Nat) :
    (l.dropWhile p).length ≤ l.length := by
  induction l with
  | nil => simp
  | cons a l ih =>
    simp only [List.dropWhile_cons]
    split
    · simp only [List.length_cons]; omega
    · exact Nat.le_refl _

theorem dropWhile_length_lt (p : Nat → Bool) (l : List Nat) (h : l.takeWhile p ≠ []) :
    (l.dropWhile p).length < l.length := by
  cases l with
  | nil => simp at h
  | cons a l =>
    simp only [List.takeWhile_cons] at h
    simp only [List.dropWhile_cons]
    split
    · have := dropWhile_length_le p l
      simp only [List.length_cons]; omega
    · rename_i hpa; simp [hpa] at h

theorem tail_length_le (l : List Nat) : l.tail.length ≤ l.length := by
  cases l <;> simp

theorem lexFraction_le (s frac r : List Nat) (h : lexFraction s = some (frac, r)) :
    r.length ≤ s.length := by
  unfold lexFraction at h
  cases s with
  | nil =>
    simp only [Option.some.injEq, Prod.mk.injEq] at h
    rw [← h.2]
  | cons c t =>
    simp only at h
    by_cases hc : c = 46
    · rw [if_pos hc] at h
      by_cases hd : List.takeWhile isDigit t = []
      · rw [if_pos hd] at h; simp at h
      · rw [if_neg hd] at h
        simp only [Option.some.injEq, Prod.mk.injEq] at h
        rw [← h.2]
        have := dropWhile_length_le isDigit t
        simp only [List.length_cons]; omega
    · rw [if_neg hc] at h
      simp only [Option.some.injEq, Prod.mk.injEq] at h
      rw [← h.2]

theorem lexExponent_le (s : List Nat) (e : Int) (r : List Nat)
    (h : lexExponent s = some (e, r)) : r.length ≤ s.length := by
  unfold lexExponent at h
  cases s with
  | nil =>
    simp only [Option.some.injEq, Prod.mk.injEq] at h
    rw [← h.2]
  | cons c t =>
    simp only at h
    by_cases hc : c = 101 ∨ c = 69
    · rw [if_pos hc] at h
      generalize hr1 : (if t.head? = some 45 ∨ t.head? = some 43 then t.tail else t) = r1 at h
      have h2 : r1.length ≤ t.length := by
        rw [← hr1]
        split
        · exact tail_length_le t
        · exact Nat.le_refl _
      by_cases hd : List.takeWhile isDigit r1 = []
      · rw [if_pos hd] at h; simp at h
      · rw [if_neg hd] at h
        simp only [Option.some.injEq, Prod.mk.injEq] at h
        rw [← h.2]
        have := dropWhile_length_le isDigit r1
        simp only [List.length_cons]; omega
    · rw [if_neg hc] at h
      simp only [Option.some.injEq, Prod.mk.injEq] at h
      rw [← h.2]

theorem lexNumber_shorter (s : List Nat) (n : JSNum) (r : List Nat)
    (h : lexNumber s = some (n, r)) : r.length < s.length := by
  unfold lexNumber at h
  simp only at h
  generalize hs0 : (if decide (s.head? = some 45) = true then s.tail else s) = s0 at h
  have h0 : s0.length ≤ s.length := by
    rw [← hs0]
    split
    · exact tail_length_le s
    · exact Nat.le_refl _
  by_cases hint : List.takeWhile isDigit s0 = [] ∨
      ((List.takeWhile isDigit s0).head? = some 48 ∧ 1 < (List.takeWhile isDigit s0).length)
  · rw [if_pos hint] at h; simp at h
  · rw [if_neg hint] at h
    have hne : List.takeWhile isDigit s0 ≠ [] := fun hnil => hint (Or.inl hnil)
    have h1 := dropWhile_length_lt isDigit s0 hne
    cases hf : lexFraction (List.dropWhile isDigit s0) with
    | none => simp [hf] at h
    | some p =>
      have h2 := lexFraction_le _ p.1 p.2 hf
      simp only [hf] at h
      cases he : lexExponent p.2 with
      | none => simp [he] at h
      | some q =>
        have h3 := lexExponent_le _ q.1 q.2 he
        simp only [he, Option.some.injEq, Prod.mk.injEq] at h
        rw [← h.2]; omega

theorem dropLiteral_le (lit s r : List Nat) (h : dropLiteral lit s = some r) :
    r.length ≤ s.length := by
  induction lit generalizing s with
  | nil => simp [dropLiteral] at h; rw [h]
  | cons l lit ih =>
    cases s with
    | nil => simp [dropLiteral] at h
    | cons c s =>
      simp only [dropLiteral] at h
      split at h
      · have := ih s h
        simp only [List.length_cons]; omega
      · simp at h

theorem lexToken_le (c : Nat) (rest : List Nat) (t : Token) (r : List Nat)
    (h : lexToken c rest = some (t, r)) : r.length ≤ rest.length := by
  unfold lexToken at h
  by_cases h1 : c = 91
  · rw [if_pos h1] at h; simp only [Option.some.injEq, Prod.mk.injEq] at h; rw [← h.2]
  rw [if_neg h1] at h
  by_cases h2 : c = 93
  · rw [if_pos h2] at h; simp only [Option.some.injEq, Prod.mk.injEq] at h; rw [← h.2]
  rw [if_neg h2] at h
  by_cases h3 : c = 123
  · rw [if_pos h3] at h; simp only [Option.some.injEq, Prod.mk.injEq] at h; rw [← h.2]
  rw [if_neg h3] at h
  by_cases h4 : c = 125
  · rw [if_pos h4] at h; simp only [Option.some.injEq, Prod.mk.injEq] at h; rw [← h.2]
  rw [if_neg h4] at h
  by_cases h5 : c = 44
  · rw [if_pos h5] at h; simp only [Option.some.injEq, Prod.mk.injEq] at h; rw [← h.2]
  rw [if_neg h5] at h
  by_cases h6 : c = 58
  · rw [if_pos h6] at h; simp only [Option.some.injEq, Prod.mk.injEq] at h; rw [← h.2]
  rw [if_neg h6] at h
  by_cases h7 : c = 34
  · rw [if_pos h7] at h
    cases hl : lexString rest with
    | none => simp [hl] at h
    | some p =>
      have := lexString_shorter rest p.1 p.2 hl
      simp only [hl, Option.map_some', Option.some.injEq, Prod.mk.injEq] at h
      rw [← h.2]; omega
  rw [if_neg h7] at h
  by_cases h8 : c = 45 ∨ isDigit c = true
  · rw [if_pos h8] at h
    cases hl : lexNumber (c :: rest) with
    | none => simp [hl] at h
    | some p =>
      have := lexNumber_shorter (c :: rest) p.1 p.2 hl
      simp only [hl, Option.map_some', Option.some.injEq, Prod.mk.injEq] at h
      rw [← h.2]; simp only [List.length_cons] at this; omega
  rw [if_neg h8] at h
  by_cases h9 : c = 116
  · rw [if_pos h9] at h
    cases hl : dropLiteral (js "rue") rest with
    | none => simp [hl] at h
    | some p =>
      have := dropLiteral_le _ rest p hl
      simp only [hl, Option.map_some', Option.some.injEq, Prod.mk.injEq] at h
      rw [← h.2]; exact this
  rw [if_neg h9] at h
  by_cases h10 : c = 102
  · rw [if_pos h10] at h
    cases hl : dropLiteral (js "alse") rest with
    | none => simp [hl] at h
    | some p =>
      have := dropLiteral_le _ rest p hl
      simp only [hl, Option.map_some', Option.some.injEq, Prod.mk.injEq] at h
      rw [← h.2]; exact this
  rw [if_neg h10] at h
  by_cases h11 : c = 110
  · rw [if_pos h11] at h
    cases hl : dropLiteral (js "ull") rest with
    | none => simp [hl] at h
    | some p =>
      have := dropLiteral_le _ rest p hl
      simp only [hl, Option.map_some', Option.some.injEq, Prod.mk.injEq] at h
      rw [← h.2]; exact this
  rw [if_neg h11] at h
  simp at h

/-- More fuel than the length of the text does not change the tokens. -/
theorem lex_fuel_succ (f : Nat) :
    ∀ s : List Nat, s.length + 1 ≤ f → lex (f + 1) s = lex f s := by
  induction f with
  | zero => intro s h; omega
  | succ f ih =>
    intro s h
    cases s with
    | nil => simp [lex]
    | cons c rest =>
      simp only [List.length_cons] at h
      rw [lex, lex]
      split
      · exact ih rest (by omega)
      · cases ht : lexToken c rest with
        | none => rfl
        | some p =>
          have := lexToken_le c rest p.1 p.2 ht
          simp only
          rw [ih p.2 (by omega)]

theorem lex_fuel_enough (s : List Nat) (f : Nat) (h : s.length + 1 ≤ f) :
    lex f s = lex (s.length + 1) s := by
  induction f with
  | zero => omega
  | succ f ih =>
    rcases Nat.eq_or_lt_of_le h with heq | hlt
    · rw [heq]
    · rw [lex_fuel_succ f s (by omega)]
      exact ih (by omega)


theorem parse_shorter (f : Nat) :
    (∀ ts v r, parseValue f ts = some (v, r) → r.length < ts.length) ∧
    (∀ ts vs r, parseElements f ts = some (vs, r) → r.length < ts.length) ∧
    (∀ ts ms r, parseMembers f ts = some (ms, r) → r.length < ts.length) := by
  induction f with
  | zero =>
    refine ⟨?_, ?_, ?_⟩ <;> intro ts v r h
    · simp [parseValue] at h
    · simp [parseElements] at h
    · simp [parseMembers] at h
  | succ f ih =>
    obtain ⟨ihV, ihE, ihM⟩ := ih
    refine ⟨?_, ?_, ?_⟩
    · intro ts v r h
      cases ts with
      | nil => simp [parseValue] at h
      | cons t rest =>
        cases t
        case lbracket =>
          cases rest with
          | nil =>
            simp only [parseValue] at h
            cases hE : parseElements f [] with
            | none => simp [hE] at h
            | some p => have := ihE [] p.1 p.2 hE; simp at this
          | cons t2 rest2 =>
            by_cases ht2 : t2 = Token.rbracket
            · subst ht2
              simp only [parseValue, Option.some.injEq, Prod.mk.injEq] at h
              rw [← h.2]; simp only [List.length_cons]; omega
            · have hstep : parseValue (f + 1) (Token.lbracket :: t2 :: rest2) =
                  match parseElements f (t2 :: rest2) with
                  | some (vs, r1) => some (JSVal.arr vs, r1)
                  | none => none := by
                cases t2 <;> first | (exact absurd rfl ht2) | rfl
              rw [hstep] at h
              cases hE : parseElements f (t2 :: rest2) with
              | none => simp [hE] at h
              | some p =>
                have := ihE _ p.1 p.2 hE
                simp only [hE, Option.some.injEq, Prod.mk.injEq] at h
                rw [← h.2]; simp only [List.length_cons] at this ⊢; omega
        case lbrace =>
          cases rest with
          | nil =>
            simp only [parseValue] at h
            cases hE : parseMembers f [] with
            | none => simp [hE] at h
            | some p => have := ihM [] p.1 p.2 hE; simp at this
          | cons t2 rest2 =>
            by_cases ht2 : t2 = Token.rbrace
            · subst ht2
              simp only [parseValue, Option.some.injEq, Prod.mk.injEq] at h
              rw [← h.2]; simp only [List.length_cons]; omega
            · have hstep : parseValue (f + 1) (Token.lbrace :: t2 :: rest2) =
                  match parseMembers f (t2 :: rest2) with
                  | some (ms, r1) => some (JSVal.obj ms, r1)
                  | none => none := by
                cases t2 <;> first | (exact absurd rfl ht2) | rfl
              rw [hstep] at h
              cases hE : parseMembers f (t2 :: rest2) with
              | none => simp [hE] at h
              | some p =>
                have := ihM _ p.1 p.2 hE
                simp only [hE, Option.some.injEq, Prod.mk.injEq] at h
                rw [← h.2]; simp only [List.length_cons] at this ⊢; omega
        all_goals
          simp only [parseValue, Option.some.injEq, Prod.mk.injEq] at h
          first
            | (rw [← h.2]; simp)
            | (exact absurd h (by simp))
    · intro ts vs r h
      rw [parseElements] at h
      cases hV : parseValue f ts with
      | none => simp [hV] at h
      | some p =>
        have hlt := ihV ts p.1 p.2 hV
        obtain ⟨v, r0⟩ := p
        simp only [hV] at h
        cases r0 with
        | nil => simp at h
        | cons t r1 =>
          cases t <;> simp only at h <;> try contradiction
          case comma =>
            cases hE : parseElements f r1 with
            | none => simp [hE] at h
            | some q =>
              have := ihE r1 q.1 q.2 hE
              simp only [hE, Option.some.injEq, Prod.mk.injEq] at h
              rw [← h.2]; simp only [List.length_cons] at hlt; omega
          case rbracket =>
            simp only [Option.some.injEq, Prod.mk.injEq] at h
            rw [← h.2]; simp only [List.length_cons] at hlt; omega
    · intro ts ms r h
      cases ts with
      | nil => simp [parseMembers] at h
      | cons t rest =>
        cases rest with
        | nil => cases t <;> simp [parseMembers] at h
        | cons t2 r0 =>
          cases t <;> cases t2 <;> simp only [parseMembers] at h <;> try contradiction
          cases hV : parseValue f r0 with
          | none => simp [hV] at h
          | some p =>
            have hlt := ihV r0 p.1 p.2 hV
            obtain ⟨v, r1⟩ := p
            simp only [hV] at h
            cases r1 with
            | nil => simp at h
            | cons t3 r2 =>
              cases t3 <;> simp only at h <;> try contradiction
              case comma =>
                cases hM : parseMembers f r2 with
                | none => simp [hM] at h
                | some q =>
                  have := ihM r2 q.1 q.2 hM
                  simp only [hM, Option.some.injEq, Prod.mk.injEq] at h
                  rw [← h.2]; simp only [List.length_cons] at hlt ⊢; omega
              case rbrace =>
                simp only [Option.some.injEq, Prod.mk.injEq] at h
                rw [← h.2]; simp only [List.length_cons] at hlt ⊢; omega


theorem parseValue_lbracket (f : Nat) (t2 : Token) (rest2 : List Token)
    (ht2 : t2 ≠ Token.rbracket) :
    parseValue (f + 1) (Token.lbracket :: t2 :: rest2) =
      match parseElements f (t2 :: rest2) with
      | some (vs, r1) => some (JSVal.arr vs, r1)
      | none => none := by
  cases t2 <;> first | (exact absurd rfl ht2) | rfl

theorem parseValue_lbrace (f : Nat) (t2 : Token) (rest2 : List Token)
    (ht2 : t2 ≠ Token.rbrace) :
    parseValue (f + 1) (Token.lbrace :: t2 :: rest2) =
      match parseMembers f (t2 :: rest2) with
      | some (ms, r1) => some (JSVal.obj ms, r1)
      | none => none := by
  cases t2 <;> first | (exact absurd rfl ht2) | rfl

theorem parseValue_lbracket_nil (f : Nat) :
    parseValue (f + 1) [Token.lbracket] =
      match parseElements f [] with
      | some (vs, r1) => some (JSVal.arr vs, r1)
      | none => none := rfl

theorem parseValue_lbrace_nil (f : Nat) :
    parseValue (f + 1) [Token.lbrace] =
      match parseMembers f [] with
      | some (ms, r1) => some (JSVal.obj ms, r1)
      | none => none := rfl

theorem parseMembers_step (f : Nat) (k : JSString) (r0 : List Token) :
    parseMembers (f + 1) (Token.str k :: Token.colon :: r0) =
      match parseValue f r0 with
      | some (v, Token.comma :: r1) =>
        match parseMembers f r1 with
        | some (ms, r2) => some ((k, v) :: ms, r2)
        | none => none
      | some (v, Token.rbrace :: r1) => some ([(k, v)], r1)
      | _ => none := rfl

/-- One more unit of fuel changes nothing once the fuel is twice the number
of tokens. -/
theorem parse_fuel_succ (f : Nat) :
    (∀ ts, 2 * ts.length + 1 ≤ f → parseValue (f + 1) ts = parseValue f ts) ∧
    (∀ ts, 2 * ts.length + 2 ≤ f → parseElements (f + 1) ts = parseElements f ts) ∧
    (∀ ts, 2 * ts.length + 2 ≤ f → parseMembers (f + 1) ts = parseMembers f ts) := by
  induction f with
  | zero =>
    refine ⟨?_, ?_, ?_⟩ <;> intro ts h <;> omega
  | succ f ih =>
    obtain ⟨ihV, ihE, ihM⟩ := ih
    refine ⟨?_, ?_, ?_⟩
    · intro ts h
      cases ts with
      | nil => simp [parseValue]
      | cons t rest =>
        simp only [List.length_cons] at h
        cases t
        case lbracket =>
          cases rest with
          | nil =>
            simp only [List.length_nil] at h
            rw [parseValue_lbracket_nil, parseValue_lbracket_nil,
              ihE [] (by simp only [List.length_nil]; omega)]
          | cons t2 rest2 =>
            simp only [List.length_cons] at h
            by_cases ht2 : t2 = Token.rbracket
            · subst ht2; simp only [parseValue]
            · rw [parseValue_lbracket _ _ _ ht2, parseValue_lbracket _ _ _ ht2,
                ihE _ (by simp only [List.length_cons]; omega)]
        case lbrace =>
          cases rest with
          | nil =>
            simp only [List.length_nil] at h
            rw [parseValue_lbrace_nil, parseValue_lbrace_nil,
              ihM [] (by simp only [List.length_nil]; omega)]
          | cons t2 rest2 =>
            simp only [List.length_cons] at h
            by_cases ht2 : t2 = Token.rbrace
            · subst ht2; simp only [parseValue]
            · rw [parseValue_lbrace _ _ _ ht2, parseValue_lbrace _ _ _ ht2,
                ihM _ (by simp only [List.length_cons]; omega)]
        all_goals simp only [parseValue]
    · intro ts h
      rw [parseElements, parseElements, ihV ts (by omega)]
      cases hV : parseValue f ts with
      | none => rfl
      | some p =>
        have hlt := (parse_shorter f).1 ts p.1 p.2 hV
        obtain ⟨v, r0⟩ := p
        cases r0 with
        | nil => rfl
        | cons t r1 =>
          simp only [List.length_cons] at hlt
          cases t <;> simp only
          rw [ihE r1 (by omega)]
    · intro ts h
      cases ts with
      | nil => simp [parseMembers]
      | cons t rest =>
        cases rest with
        | nil => cases t <;> simp [parseMembers]
        | cons t2 r0 =>
          simp only [List.length_cons] at h
          cases t <;> cases t2 <;> first | rfl | skip
          rw [parseMembers_step, parseMembers_step, ihV r0 (by omega)]
          cases hV : parseValue f r0 with
          | none => rfl
          | some p =>
            have hlt := (parse_shorter f).1 r0 p.1 p.2 hV
            obtain ⟨v, r1⟩ := p
            cases r1 with
            | nil => rfl
            | cons t3 r2 =>
              simp only [List.length_cons] at hlt
              cases t3 <;> simp only
              rw [ihM r2 (by omega)]

theorem parseValue_fuel_enough (ts : List Token) (f : Nat) (h : 2 * ts.length + 2 ≤ f) :
    parseValue f ts = parseValue (2 * ts.length + 2) ts := by
  induction f with
  | zero => omega
  | succ f ih =>
    rcases Nat.eq_or_lt_of_le h with heq | hlt
    · rw [heq]
    · rw [(parse_fuel_succ f).1 ts (by omega)]
      exact ih (by omega)


/-- `JSON.parse` does not depend on its fuel: with any fuel above the length of
the text for the lexer and any fuel above twice the number of tokens for the
parser, the outcome is the one of `JSON.parse`. -/
theorem parse_fuel_irrelevant (text : JSString) (f₁ f₂ : Nat)
    (h₁ : text.length + 1 ≤ f₁)
    (h₂ : ∀ ts, lex (text.length + 1) text = some ts → 2 * ts.length + 2 ≤ f₂) :
    (match lex f₁ text with
      | none => none
      | some ts =>
        match parseValue f₂ ts with
        | some (v, []) => some v
        | _ => none) = JSON.parse text := by
  unfold JSON.parse
  rw [lex_fuel_enough text f₁ h₁]
  cases hl : lex (text.length + 1) text with
  | none => rfl
  | some ts =>
    simp only
    rw [parseValue_fuel_enough ts f₂ (h₂ ts hl)]

/-! ### Rounding error of the binary64 model -/

theorem roundHalfEven_err (a d : Nat) (hd : 0 < d) :
    2 * (roundHalfEven a d * d) ≤ 2 * a + d ∧ 2 * a ≤ 2 * (roundHalfEven a d * d) + d := by
  have hdm := Nat.div_add_mod a d
  have hm := Nat.mod_lt a hd
  have hcomm : d * (a / d) = a / d * d := Nat.mul_comm _ _
  have hsucc : (a / d + 1) * d = a / d * d + d := Nat.succ_mul _ _
  unfold roundHalfEven
  simp only
  split
  · omega
  · split
    · rw [hsucc]; omega
    · split
      · omega
      · rw [hsucc]; omega

theorem pow_log2Fuel_le (fuel n : Nat) (h : 1 ≤ n) : 2 ^ log2Fuel fuel n ≤ n := by
  induction fuel generalizing n with
  | zero => simpa [log2Fuel] using h
  | succ f ih =>
    unfold log2Fuel
    split
    · simpa using h
    · rename_i h2
      have := ih (n / 2) (by omega)
      rw [Nat.pow_succ]
      omega

theorem pow_log2_le (n : Nat) (h : 1 ≤ n) : 2 ^ log2 n ≤ n :=
  pow_log2Fuel_le n n h

theorem lt_pow_log2Fuel (fuel n : Nat) (h : n ≤ fuel) : n < 2 ^ (log2Fuel fuel n + 1) := by
  induction fuel generalizing n with
  | zero =>
    have h0 : n = 0 := by omega
    subst h0; simp [log2Fuel]
  | succ f ih =>
    unfold log2Fuel
    split
    · simpa using (by omega : n < 2)
    · have := ih (n / 2) (by omega)
      rw [Nat.pow_succ]
      omega

/-- The leading bit of `n ≥ 1` is at position `log2 n`. -/
theorem log2_spec (n : Nat) (h : 1 ≤ n) : 2 ^ log2 n ≤ n ∧ n < 2 ^ (log2 n + 1) :=
  ⟨pow_log2_le n h, lt_pow_log2Fuel n n (Nat.le_refl n)⟩

/-- Rounding to 53 bits moves a value of at least `2^52` by at most one part
in `2^53`. -/
theorem round53_err (a b : Nat) (hb : 0 < b) (hq : 2 ^ 52 * b ≤ a) :
    2 ^ 53 * (round53 a b * b) ≤ 2 ^ 53 * a + a ∧
      2 ^ 53 * a ≤ 2 ^ 53 * (round53 a b * b) + a := by
  have hq1 : 2 ^ 52 ≤ a / b := (Nat.le_div_iff_mul_le hb).mpr hq
  have hlog := pow_log2_le (a / b) (by omega)
  have hqb : a / b * b ≤ a := Nat.div_mul_le_self a b
  -- the spacing `d` of the grid is at most `a / 2^52`
  have hd : 2 ^ 52 * (b * 2 ^ (log2 (a / b) - 52)) ≤ a := by
    by_cases hL : 52 ≤ log2 (a / b)
    · have e : 2 ^ 52 * 2 ^ (log2 (a / b) - 52) = 2 ^ log2 (a / b) := by
        rw [← Nat.pow_add]; congr 1; omega
      calc 2 ^ 52 * (b * 2 ^ (log2 (a / b) - 52))
          = (2 ^ 52 * 2 ^ (log2 (a / b) - 52)) * b := by ring
        _ = 2 ^ log2 (a / b) * b := by rw [e]
        _ ≤ a / b * b := Nat.mul_le_mul_right b hlog
        _ ≤ a := hqb
    · have e : log2 (a / b) - 52 = 0 := by omega
      rw [e]; simpa using hq
  have hdpos : 0 < b * 2 ^ (log2 (a / b) - 52) := Nat.mul_pos hb (Nat.pow_pos (by decide))
  have herr := roundHalfEven_err a (b * 2 ^ (log2 (a / b) - 52)) hdpos
  have hx : round53 a b * b =
      roundHalfEven a (b * 2 ^ (log2 (a / b) - 52)) * (b * 2 ^ (log2 (a / b) - 52)) := by
    unfold round53; simp only; ring
  rw [hx]
  generalize roundHalfEven a (b * 2 ^ (log2 (a / b) - 52)) *
    (b * 2 ^ (log2 (a / b) - 52)) = rd at herr ⊢
  generalize b * 2 ^ (log2 (a / b) - 52) = d at hd herr
  norm_num at hd ⊢
  omega


theorem scale_half : binary64Scale = 2 * (binary64Scale / 2) := by
  have h : binary64Scale = 2 * 2 ^ 1073 := by
    unfold binary64Scale; rw [← Nat.pow_succ']
  generalize (2 : Nat) ^ 1073 = k at h
  omega

theorem two_pow_mono (k : Nat) (h : 100 ≤ k) : 2 ^ 100 ≤ 2 ^ k :=
  Nat.pow_le_pow_right (by decide) h

theorem scale_big : 2 ^ 100 ≤ binary64Scale :=
  two_pow_mono 1074 (by decide)

theorem round53_zero (b : Nat) : round53 0 b = 0 := by
  unfold round53 roundHalfEven
  simp

theorem percentage_zero (t : Nat) : percentage 0 t = 0 := by
  unfold percentage
  split
  · have h0 : fdiv 0 t = 0 := by
      unfold fdiv; rw [Nat.zero_mul]; exact round53_zero t
    have h1 : fmul100 0 = 0 := by
      unfold fmul100; rw [Nat.zero_mul]; exact round53_zero 1
    rw [h0, h1]
    unfold mathRound
    have := scale_half
    have := scale_big
    apply Nat.div_eq_of_lt
    omega
  · rfl

/-- The bounds that the two roundings leave between `Math.round`'s result `p`
and the exact `e = floor(100 c / t + 1/2)`. -/
theorem percentage_bounds (c t : Nat) (hc : 1 ≤ c) (hct : c ≤ t) (ht : t < 2 ^ 32) :
    percentage c t ≤ exactPercentage c t ∧
      exactPercentage c t ≤ percentage c t + 1 ∧
      ((200 * c + t) % (2 * t) ≠ 0 → exactPercentage c t ≤ percentage c t) := by
  have htpos : 0 < t := by omega
  have hS2 := scale_half
  have hSbig := scale_big
  -- the quotient
  have hq : 2 ^ 52 * t ≤ c * binary64Scale := by
    calc 2 ^ 52 * t ≤ 2 ^ 52 * 2 ^ 32 := Nat.mul_le_mul_left _ (Nat.le_of_lt ht)
      _ ≤ 2 ^ 100 := by norm_num
      _ ≤ binary64Scale := hSbig
      _ ≤ c * binary64Scale := Nat.le_mul_of_pos_left _ hc
  have h1 := round53_err (c * binary64Scale) t htpos hq
  -- the product
  have hxt : fdiv c t * t ≤ fdiv c t * 2 ^ 32 := Nat.mul_le_mul_left _ (Nat.le_of_lt ht)
  have hq2 : 2 ^ 52 * 1 ≤ fdiv c t * 100 := by
    have h1' := h1.2
    have hcS : binary64Scale ≤ c * binary64Scale := Nat.le_mul_of_pos_left _ hc
    unfold fdiv at hxt ⊢
    generalize round53 (c * binary64Scale) t = x at h1' hxt ⊢
    generalize c * binary64Scale = A at h1' hcS
    generalize x * t = xt at h1' hxt
    generalize binary64Scale = S at hSbig hcS
    norm_num at h1' hxt hSbig ⊢
    omega
  have h2 := round53_err (fdiv c t * 100) 1 (by decide) hq2
  -- `Math.round` and the exact value
  have hp1 : mathRound (fmul100 (fdiv c t)) * binary64Scale ≤
      fmul100 (fdiv c t) + binary64Scale / 2 := Nat.div_mul_le_self _ _
  have hp2 : fmul100 (fdiv c t) + binary64Scale / 2 <
      (mathRound (fmul100 (fdiv c t)) + 1) * binary64Scale :=
    by
      unfold mathRound
      calc fmul100 (fdiv c t) + binary64Scale / 2
          < binary64Scale * ((fmul100 (fdiv c t) + binary64Scale / 2) / binary64Scale + 1) :=
            Nat.lt_mul_div_succ _ (Nat.lt_of_lt_of_le (by decide : 0 < 2 ^ 100) hSbig)
        _ = _ := Nat.mul_comm _ _
  have hE1 : exactPercentage c t * (2 * t) ≤ 200 * c + t := by
    unfold exactPercentage; rw [if_pos htpos]; exact Nat.div_mul_le_self _ _
  have hE2 : 200 * c + t < (exactPercentage c t + 1) * (2 * t) := by
    unfold exactPercentage; rw [if_pos htpos]
    calc 200 * c + t < 2 * t * ((200 * c + t) / (2 * t) + 1) :=
          Nat.lt_mul_div_succ (200 * c + t) (Nat.mul_pos (by decide : 0 < 2) htpos)
      _ = _ := Nat.mul_comm _ _
  have hE3 : (200 * c + t) % (2 * t) ≠ 0 →
      exactPercentage c t * (2 * t) + 1 ≤ 200 * c + t := by
    intro hne
    have hmod := Nat.div_add_mod (200 * c + t) (2 * t)
    have hcomm : 2 * t * ((200 * c + t) / (2 * t)) = (200 * c + t) / (2 * t) * (2 * t) :=
      Nat.mul_comm _ _
    unfold exactPercentage; rw [if_pos htpos]
    omega
  have hpct : percentage c t = mathRound (fmul100 (fdiv c t)) := by
    unfold percentage; rw [if_pos htpos]
  have h1a : 2 ^ 53 * (fdiv c t * t) ≤ 2 ^ 53 * (c * binary64Scale) + c * binary64Scale :=
    h1.1
  have h1b : 2 ^ 53 * (c * binary64Scale) ≤ 2 ^ 53 * (fdiv c t * t) + c * binary64Scale :=
    h1.2
  have h2a : 2 ^ 53 * (fmul100 (fdiv c t) * 1) ≤
      2 ^ 53 * (fdiv c t * 100) + fdiv c t * 100 := h2.1
  have h2b : 2 ^ 53 * (fdiv c t * 100) ≤
      2 ^ 53 * (fmul100 (fdiv c t) * 1) + fdiv c t * 100 := h2.2
  rw [hpct]
  generalize exactPercentage c t = e at hE1 hE2 hE3 ⊢
  generalize mathRound (fmul100 (fdiv c t)) = p at hp1 hp2 ⊢
  generalize fmul100 (fdiv c t) = y at hp1 hp2 h2a h2b
  generalize fdiv c t = x at h1a h1b h2a h2b
  obtain ⟨H, hH⟩ : ∃ H, H = binary64Scale / 2 := ⟨_, rfl⟩
  rw [← hH] at hS2 hp1 hp2
  generalize binary64Scale = S at hS2 hSbig hp1 hp2 h1a h1b
  clear hq hxt hq2 h1 h2 hH
  -- everything in units of `t * S`
  have f3 : 2 ^ 53 * (y * t) ≤ 2 ^ 53 * (100 * (x * t)) + 100 * (x * t) := by
    calc 2 ^ 53 * (y * t) = 2 ^ 53 * (y * 1) * t := by ring
      _ ≤ (2 ^ 53 * (x * 100) + x * 100) * t := Nat.mul_le_mul_right t h2a
      _ = _ := by ring
  have f4 : 2 ^ 53 * (100 * (x * t)) ≤ 2 ^ 53 * (y * t) + 100 * (x * t) := by
    calc 2 ^ 53 * (100 * (x * t)) = 2 ^ 53 * (x * 100) * t := by ring
      _ ≤ (2 ^ 53 * (y * 1) + x * 100) * t := Nat.mul_le_mul_right t h2b
      _ = _ := by ring
  have f5 : p * (t * S) ≤ y * t + H * t := by
    calc p * (t * S) = p * S * t := by ring
      _ ≤ (y + H) * t := Nat.mul_le_mul_right t hp1
      _ = _ := by ring
  have f6 : y * t + H * t < p * (t * S) + t * S := by
    calc y * t + H * t = (y + H) * t := by ring
      _ < (p + 1) * S * t := Nat.mul_lt_mul_of_pos_right hp2 htpos
      _ = _ := by ring
  have f7 : 2 * (e * (t * S)) ≤ 200 * (c * S) + t * S := by
    calc 2 * (e * (t * S)) = e * (2 * t) * S := by ring
      _ ≤ (200 * c + t) * S := Nat.mul_le_mul_right S hE1
      _ = _ := by ring
  have f8 : 200 * (c * S) + t * S + S ≤ 2 * (e * (t * S)) + 2 * (t * S) := by
    calc 200 * (c * S) + t * S + S = (200 * c + t + 1) * S := by ring
      _ ≤ (e + 1) * (2 * t) * S := Nat.mul_le_mul_right S (Nat.succ_le_of_lt hE2)
      _ = _ := by ring
  have f8' : (200 * c + t) % (2 * t) ≠ 0 →
      2 * (e * (t * S)) + S ≤ 200 * (c * S) + t * S := by
    intro hne
    calc 2 * (e * (t * S)) + S = (e * (2 * t) + 1) * S := by ring
      _ ≤ (200 * c + t) * S := Nat.mul_le_mul_right S (hE3 hne)
      _ = _ := by ring
  have f9 : t * S = 2 * (H * t) := by rw [hS2]; ring
  have f10 : t * S ≤ 2 ^ 32 * S := Nat.mul_le_mul_right S (Nat.le_of_lt ht)
  have f11 : c * S ≤ t * S := Nat.mul_le_mul_right S hct
  have key1 : p * (t * S) < (e + 1) * (t * S) := by
    rw [Nat.succ_mul]
    generalize p * (t * S) = PTS at f5 f6 ⊢
    generalize e * (t * S) = ETS at f7 f8 f8' ⊢
    generalize x * t = XT at h1a h1b f3 f4
    generalize y * t = YT at f3 f4 f5 f6
    generalize c * S = A at h1a h1b f7 f8 f8' f11
    generalize H * t = HT at f5 f6 f9
    generalize t * S = TS at f5 f6 f7 f8 f8' f9 f10 f11 ⊢
    norm_num at h1a h1b f3 f4 f10 hSbig
    omega
  have key2 : e * (t * S) < (p + 2) * (t * S) := by
    rw [Nat.add_mul]
    generalize p * (t * S) = PTS at f5 f6 ⊢
    generalize e * (t * S) = ETS at f7 f8 f8' ⊢
    generalize x * t = XT at h1a h1b f3 f4
    generalize y * t = YT at f3 f4 f5 f6
    generalize c * S = A at h1a h1b f7 f8 f8' f11
    generalize H * t = HT at f5 f6 f9
    generalize t * S = TS at f5 f6 f7 f8 f8' f9 f10 f11 ⊢
    norm_num at h1a h1b f3 f4 f10 hSbig
    omega
  have key3 : (200 * c + t) % (2 * t) ≠ 0 → e * (t * S) < (p + 1) * (t * S) := by
    intro hne
    have f12 := f8' hne
    rw [Nat.succ_mul]
    generalize p * (t * S) = PTS at f5 f6 ⊢
    generalize e * (t * S) = ETS at f7 f8 f12 ⊢
    generalize x * t = XT at h1a h1b f3 f4
    generalize y * t = YT at f3 f4 f5 f6
    generalize c * S = A at h1a h1b f7 f8 f12 f11
    generalize H * t = HT at f5 f6 f9
    generalize t * S = TS at f5 f6 f7 f8 f12 f9 f10 f11 ⊢
    norm_num at h1a h1b f3 f4 f10 hSbig
    omega
  refine ⟨?_, ?_, ?_⟩
  · exact Nat.lt_succ_iff.mp (Nat.lt_of_mul_lt_mul_right key1)
  · have := Nat.lt_of_mul_lt_mul_right key2
    omega
  · intro hne
    exact Nat.lt_succ_iff.mp (Nat.lt_of_mul_lt_mul_right (key3 hne))


/-! ### Derived stats -/

theorem completed_add_pending (todos : List Todo) :
    completedCount todos + pendingCount todos = totalCount todos := by
  unfold completedCount pendingCount totalCount
  induction todos with
  | nil => rfl
  | cons a l ih =>
    cases h : a.completed <;> simp [List.filter_cons, h] at ih ⊢ <;> omega

theorem completedCount_le (todos : List Todo) : completedCount todos ≤ totalCount todos := by
  have := completed_add_pending todos
  omega

theorem exactPercentage_zero (t : Nat) : exactPercentage 0 t = 0 := by
  unfold exactPercentage
  split
  · apply Nat.div_eq_of_lt; omega
  · rfl

/-- The percentage of the code against the exact one, for counts that an array
can have. -/
theorem percentage_vs_exact (c t : Nat) (hct : c ≤ t) (ht : t < 2 ^ 32) :
    percentage c t = exactPercentage c t ∨
      (percentage c t + 1 = exactPercentage c t ∧ (200 * c + t) % (2 * t) = 0) := by
  rcases Nat.eq_zero_or_pos c with h0 | hpos
  · subst h0
    left; rw [percentage_zero, exactPercentage_zero]
  · obtain ⟨h1, h2, h3⟩ := percentage_bounds c t hpos hct ht
    by_cases htie : (200 * c + t) % (2 * t) = 0
    · rcases Nat.lt_or_ge (percentage c t) (exactPercentage c t) with hlt | hge
      · right; exact ⟨by omega, htie⟩
      · left; omega
    · left; have := h3 htie; omega

/-- Claim C6, as the code has it.  The dashboard shows `total = |todos|`,
`completed` and `pending` the numbers of tasks with `completed` true and
false, and a percentage that is `0` for the empty collection and otherwise
`Math.round` of the binary64 product `(completed / total) * 100`: it equals the
exact round-half-up value `floor(100 * completed / total + 1/2)`, except that on
an exact tie (`200 * completed` an odd multiple of `total`) it may be one less.
The empty collection gives `{0, 0, 0, 0}`, three tasks with one completed give
`{3, 2, 1, 33}`, and `ProgressBar` computes the same percentage. -/
theorem stats_spec (todos : List Todo) (hlen : todos.length < 2 ^ 32) :
    (stats todos).total = todos.length ∧
      (stats todos).completed = todos.countP (fun todo => todo.completed) ∧
      (stats todos).pending = todos.countP (fun todo => !todo.completed) ∧
      ((stats todos).percentage =
          exactPercentage (stats todos).completed (stats todos).total ∨
        ((stats todos).percentage + 1 =
            exactPercentage (stats todos).completed (stats todos).total ∧
          (200 * (stats todos).completed + (stats todos).total) %
            (2 * (stats todos).total) = 0)) ∧
      (todos = [] → stats todos = ⟨0, 0, 0, 0⟩) ∧
      (todos.length = 3 → todos.countP (fun todo => todo.completed) = 1 →
        stats todos = ⟨3, 2, 1, 33⟩) ∧
      ProgressBar.percentage (stats todos).completed (stats todos).total =
        (stats todos).percentage := by
  have hc : completedCount todos = todos.countP (fun todo => todo.completed) := by
    unfold completedCount; rw [List.countP_eq_length_filter]
  have hp : pendingCount todos = todos.countP (fun todo => !todo.completed) := by
    unfold pendingCount; rw [List.countP_eq_length_filter]
  have hsum := completed_add_pending todos
  refine ⟨rfl, hc, hp, ?_, ?_, ?_, rfl⟩
  · exact percentage_vs_exact _ _ (completedCount_le todos) hlen
  · intro h; subst h; simp [stats, totalCount, pendingCount, completedCount, percentage]
  · intro h3 h1
    have e33 : percentage 1 3 = 33 := by decide!
    have ht : totalCount todos = 3 := h3
    have hcc : completedCount todos = 1 := by rw [hc, h1]
    have hpp : pendingCount todos = 2 := by omega
    simp only [stats, ht, hcc, hpp, e33]

theorem stats_spec_witness :
    [(⟨3, js "c", false⟩ : Todo), ⟨2, js "b", true⟩, ⟨1, js "a", false⟩].length < 2 ^ 32 ∧
      stats [⟨3, js "c", false⟩, ⟨2, js "b", true⟩, ⟨1, js "a", false⟩] = ⟨3, 2, 1, 33⟩ :=
  ⟨by decide,
    (stats_spec [⟨3, js "c", false⟩, ⟨2, js "b", true⟩, ⟨1, js "a", false⟩]
      (by decide)).2.2.2.2.2.1 (by decide) (by decide)⟩

/-- Claim C6 as stated fails: with 40 tasks of which 23 are completed the code
shows 57, since the binary64 product `(23 / 40) * 100` is `57.49999999999999`,
while `100 * 23 / 40 = 57.5` rounds half up to 58. -/
theorem percentage_below_exact :
    stats ((List.range 40).map
        (fun i => ({ id := i, todo := js "task", completed := decide (i < 23) } : Todo))) =
      ⟨40, 17, 23, 57⟩ ∧
    ProgressBar.percentage 23 40 = 57 ∧ exactPercentage 23 40 = 58 := by
  decide!

/-! ### Persistence -/

/-- Claim C7.  For every collection `todos`, the empty one included, the mount
effect applied to the value that the save effect wrote yields the collection:
`load (save todos)` succeeds with the JavaScript value of `todos`. -/
theorem load_save (todos : List Todo) : load (save todos) = Except.ok (toJS todos) := by
  unfold load save
  simp only [Option.getD_some, parse_stringify]
  cases todos with
  | nil => rfl
  | cons t rest => simp [toJS, truthy, lengthGtZero]

/-- Claim C11 as stated fails on a corrupt value: for the truncated text
`[{"id":1,"todo":"a"` the call of `JSON.parse` throws, so the mount effect fails
instead of leaving an empty collection; and for the text `"abc"`, a JSON string
and not a task array, the effect installs the string `abc` as the collection. -/
theorem load_corrupt_fails :
    JSON.parse (js "[\x7b\"id\":1,\"todo\":\"a\"") = none ∧
      load (some (js "[\x7b\"id\":1,\"todo\":\"a\"")) = Except.error LoadError.syntaxError ∧
      load (some (js "\"abc\"")) = Except.ok (JSVal.str (js "abc")) :=
  ⟨rfl, rfl, rfl⟩

/-- Claim C11, as the code has it.  When the key holds nothing, or holds the
serialized empty array (`[]`, which is what the save effect writes for the
empty collection), the mount effect does not fail and the collection is empty;
when it holds a text that is not JSON, the effect fails with the `SyntaxError`
of `JSON.parse`. -/
theorem load_missing_or_empty (text : JSString) (h : JSON.parse text = none) :
    load none = Except.ok (JSVal.arr []) ∧
      save [] = some (js "[]") ∧
      load (some (js "[]")) = Except.ok (JSVal.arr []) ∧
      load (some text) = Except.error LoadError.syntaxError := by
  refine ⟨rfl, rfl, rfl, ?_⟩
  unfold load
  simp [h]

theorem load_missing_or_empty_witness :
    JSON.parse (js "oops") = none ∧
      load (some (js "oops")) = Except.error LoadError.syntaxError :=
  ⟨rfl, (load_missing_or_empty (js "oops") rfl).2.2.2⟩

end TodoApp
